import Mathlib

/-!
# Verification of the medibook document structuring and chunking pipeline

This file gives a shallow embedding, in Lean 4, of the text-processing core of
the repository (the functions of `script/structure_builder.py` and
`script/chunker_RAG_PRODUCTION.py`), together with theorems settling the
frozen claims about that code.

Modelling conventions:
* Python strings are modelled as `List Char` (`Str`).  Character predicates
  (`isdigit`, `lower`, whitespace) are modelled over the ASCII range, which is
  the range the heuristic patterns of the source target.
* Python regular expressions are embedded either through a small Brzozowski
  derivative matcher (`RE`) for the class-based patterns, or as direct search
  functions for the literal patterns.  Only the truth value of
  `re.match`/`re.search` is ever consumed by the source (apart from the table
  reference text, which is embedded directly), and for truth value purposes
  lazy and greedy quantifiers agree.
* Python float arithmetic on the heuristic scores is modelled by exact
  rational arithmetic (`ℚ`).  All thresholds (0.3, 0.4, 0.5, 0.6) are compared
  against ratios of small integers, where IEEE double rounding provably cannot
  cross a threshold, so the rational model is faithful.
* `dict` objects keyed by discovered indices are modelled by insertion-ordered
  association lists.
-/

set_option autoImplicit false

abbrev Str := List Char

namespace PyStr

/-- Python whitespace (`str.strip`, `\s`): space, tab, newline, CR, VT, FF. -/
def isWs (c : Char) : Bool :=
  c = ' ' || c = '\t' || c = '\n' || c = '\r' || c = '\x0b' || c = '\x0c'

/-- `str.lstrip()`. -/
def stripLeft (s : Str) : Str := s.dropWhile isWs

/-- `str.rstrip()`. -/
def stripRight (s : Str) : Str := (s.reverse.dropWhile isWs).reverse

/-- `str.strip()`. -/
def strip (s : Str) : Str := stripRight (stripLeft s)

/-- ASCII `str.lower()`. -/
def lower (s : Str) : Str := s.map Char.toLower

/-- Scanner for `str.split(sep)` with non-empty separator `c0 :: sep`:
cut at the leftmost occurrence, recurse on the remainder.  Keeps empty
parts, as Python does.  Structural recursion on an explicit fuel (every
step consumes at least one character, so `s.length + 1` fuel never runs
out; the fuel-0 fallback returns the remaining text unsplit). -/
def splitSepCore (c0 : Char) (sep : Str) : Nat → Str → Str → List Str
  | 0, s, acc => [acc.reverse ++ s]
  | _ + 1, [], acc => [acc.reverse]
  | fuel + 1, c :: rest, acc =>
    if (c0 :: sep).isPrefixOf (c :: rest) then
      acc.reverse :: splitSepCore c0 sep fuel (rest.drop sep.length) []
    else
      splitSepCore c0 sep fuel rest (c :: acc)

/-- Python `str.split(sep)`.  Always returns at least one part. -/
def splitSep (sep : Str) (s : Str) : List Str :=
  match sep with
  | [] => [s]
  | c0 :: sepRest => splitSepCore c0 sepRest (s.length + 1) s []

/-- Python `str.splitlines()` scanner: break at `\n`, `\r\n` and `\r`. -/
def splitlinesAux : Str → Str → List Str
  | [], acc => [acc.reverse]
  | '\r' :: '\n' :: rest, acc => acc.reverse :: splitlinesAux rest []
  | '\n' :: rest, acc => acc.reverse :: splitlinesAux rest []
  | '\r' :: rest, acc => acc.reverse :: splitlinesAux rest []
  | c :: rest, acc => splitlinesAux rest (c :: acc)

/-- Python `str.splitlines()`: no trailing empty line for a trailing
terminator, and `[]` on the empty string. -/
def splitlines (s : Str) : List Str :=
  if s = [] then []
  else
    let parts := splitlinesAux s []
    if parts.getLast? = some [] then parts.dropLast else parts

/-- Python `sep.join(parts)`. -/
def joinSep (sep : Str) : List Str → Str
  | [] => []
  | [p] => p
  | p :: q :: rest => p ++ sep ++ joinSep sep (q :: rest)

/-- Python `pat in s` (substring containment). -/
def containsSub (pat : Str) : Str → Bool
  | [] => pat.isEmpty
  | c :: rest => pat.isPrefixOf (c :: rest) || containsSub pat rest

/-- `s.count(ch)` for a single character. -/
def countChar (ch : Char) (s : Str) : Nat := s.countP (fun c => c = ch)

end PyStr

/-! ## A small regular-expression matcher (Brzozowski derivatives)

Used to embed the class-based Python patterns.  `cls` carries a decidable
character predicate; smart constructors keep derivative terms small. -/

inductive RE where
  | zero
  | eps
  | cls (p : Char → Bool)
  | cat (a b : RE)
  | alt (a b : RE)
  | star (a : RE)

namespace RE

def nullable : RE → Bool
  | .zero => false
  | .eps => true
  | .cls _ => false
  | .cat a b => nullable a && nullable b
  | .alt a b => nullable a || nullable b
  | .star _ => true

def isZero : RE → Bool
  | .zero => true
  | _ => false

def isEps : RE → Bool
  | .eps => true
  | _ => false

def mkCat (a b : RE) : RE :=
  if isZero a || isZero b then .zero
  else if isEps a then b
  else if isEps b then a
  else .cat a b

def mkAlt (a b : RE) : RE :=
  if isZero a then b
  else if isZero b then a
  else .alt a b

def deriv : RE → Char → RE
  | .zero, _ => .zero
  | .eps, _ => .zero
  | .cls p, c => if p c then .eps else .zero
  | .cat a b, c =>
    if nullable a then mkAlt (mkCat (deriv a c) b) (deriv b c)
    else mkCat (deriv a c) b
  | .alt a b, c => mkAlt (deriv a c) (deriv b c)
  | .star a, c => mkCat (deriv a c) (.star a)

/-- Whole-string acceptance. -/
def accepts (r : RE) (s : Str) : Bool := nullable (s.foldl deriv r)

/-- Literal word. -/
def lit (w : Str) : RE := w.foldr (fun c r => mkCat (.cls (fun x => x = c)) r) .eps

def chr (c : Char) : RE := .cls (fun x => x = c)

def opt (r : RE) : RE := mkAlt r .eps

def plus (r : RE) : RE := mkCat r (.star r)

/-- `\d` (Python without `re.UNICODE` effects beyond ASCII in this corpus). -/
def dig : RE := .cls Char.isDigit

/-- `\s`. -/
def wsC : RE := .cls PyStr.isWs

/-- `.` without `re.DOTALL`: any character except a newline. -/
def anyC : RE := .cls (fun c => c ≠ '\n')

def anyStar : RE := .star anyC

/-- Arbitrary characters, used to embed the implicit scan of `re.search`. -/
def allStar : RE := .star (.cls (fun _ => true))

/-- Any ASCII letter: `[A-Z]`/`[a-z]` under `re.IGNORECASE`. -/
def alphaC : RE := .cls Char.isAlpha

/-- Case-sensitive `[A-Z]`. -/
def upperC : RE := .cls Char.isUpper

/-- Case-sensitive `[a-z]`. -/
def lowerC : RE := .cls Char.isLower

def seq (rs : List RE) : RE := rs.foldr mkCat .eps

/-- `re.match` for a pattern without a `$` anchor: some prefix matches. -/
def reMatchPrefix (r : RE) (s : Str) : Bool := accepts (mkCat r allStar) s

/-- `re.match`/`re.search` for a `^...$` pattern: the whole string matches. -/
def reMatchFull (r : RE) (s : Str) : Bool := accepts r s

/-- `re.search` for a pattern without anchors. -/
def reSearch (r : RE) (s : Str) : Bool := accepts (mkCat allStar (mkCat r allStar)) s

/-- `re.search` for a `...$` pattern: some suffix matches. -/
def reSearchEnd (r : RE) (s : Str) : Bool := accepts (mkCat allStar r) s

end RE

/-! ## Word-boundary search (`\b...\b` patterns) -/

namespace PyStr

/-- Python word character `\w` (ASCII part). -/
def isWordChar (c : Char) : Bool := c.isAlphanum || c = '_'

def afterBoundaryOk : Str → Bool
  | [] => true
  | d :: _ => !isWordChar d

/-- Scan for an occurrence of the word `w` flanked by `\b` on both sides;
`prev` is the character immediately before the current position. -/
def searchWordFrom (w : Str) : Str → Option Char → Bool
  | [], _ => false
  | c :: rest, prev =>
    ((match prev with | none => true | some p => !isWordChar p) &&
      w.isPrefixOf (c :: rest) && afterBoundaryOk (List.drop w.length (c :: rest))) ||
    searchWordFrom w rest (some c)

/-- `re.search(r'\bw\b', s)` for a word `w` made of word characters. -/
def searchWord (w : String) (s : Str) : Bool := searchWordFrom w.toList s none

/-- `re.search` for `\b(w₁|w₂|…)\b`. -/
def searchWordAny (ws : List String) (s : Str) : Bool := ws.any (fun w => searchWord w s)

end PyStr

/-! ## Embedding of `script/structure_builder.py` -/

namespace StructureBuilder

open RE PyStr

/-- A page record: the fields of the source page dicts consulted by the
structuring functions (`page_no`, `text`). -/
structure Page where
  page_no : Nat
  text : Str
deriving DecidableEq

/-- `[A-Za-z\s,&\-]` (under `re.IGNORECASE`). -/
def hdrCls : RE := .cls (fun c => c.isAlpha || isWs c || c = ',' || c = '&' || c = '-')

/-- `PAGE_HEADER_PATTERNS`, all `^...$` anchored, matched with
`re.match(..., re.IGNORECASE)`; the line is lowered and letter classes are
case-folded accordingly. -/
def pageHeaderPatterns : List RE := [
  seq [plus dig, plus wsC, alphaC, plus hdrCls, plus wsC, plus dig],
  seq [plus dig, plus wsC, lit "gynecologic oncology".toList, plus wsC, plus dig],
  seq [plus dig, plus wsC, plus dig, plus wsC, alphaC, plus hdrCls],
  seq [lit "chapter".toList, plus wsC, plus dig, anyStar, plus dig],
  seq [dig, opt dig, opt dig, opt dig],
  seq [chr '[', plus dig, chr ']']
]

def matchesPageHeader (line : Str) : Bool :=
  let t := lower (strip line)
  pageHeaderPatterns.any (fun r => reMatchFull r t)

/-- `remove_all_page_headers`: drop every line matching a header pattern. -/
def remove_all_page_headers (text : Str) : Str :=
  joinSep ['\n'] ((splitlines text).filter (fun l => !matchesPageHeader l))

/-- `NOISE_PATTERNS`, each as a search over the (lowered) line. -/
def noisePatterns : List (Str → Bool) := [
  fun l => reSearch (seq [lit "copyright".toList, anyStar, lit "all rights reserved".toList]) (lower l),
  fun l => reSearch (seq [chr '©', anyStar, dig, dig, dig, dig]) (lower l),
  fun l => reSearch (seq [lit "published by".toList, anyStar, lit "press".toList]) (lower l),
  fun l => reSearch (seq [lit "isbn".toList, anyStar, dig]) (lower l),
  fun l => reSearch (lit "printed in".toList) (lower l),
  fun l => reSearch (mkCat (mkAlt (lit "first".toList) (mkAlt (lit "second".toList) (lit "third".toList)))
            (lit " edition".toList)) (lower l),
  fun l => reSearch (lit "all rights reserved".toList) (lower l),
  fun l => reSearch (seq [lit "no part of this".toList, anyStar, lit "reproduced".toList]) (lower l),
  fun l => reSearch (seq [lit "permission".toList, anyStar, lit "publisher".toList]) (lower l),
  fun l => reSearch (lit "table of contents".toList) (lower l),
  fun l => reMatchFull (lit "contents".toList) (lower l),
  fun l => reSearch (seq [lit "chapter".toList, plus wsC, plus dig, anyStar, lit "...".toList]) (lower l),
  fun l => reSearch (lit "preface".toList) (lower l),
  fun l => reSearch (lit "foreword".toList) (lower l),
  fun l => reSearch (seq [lit "acknowledgement".toList, opt (chr 's')]) (lower l),
  fun l => reSearch (lit "dedication".toList) (lower l),
  fun l => reSearch (seq [lit "about the ".toList, mkAlt (lit "author".toList) (lit "editor".toList),
            opt (chr 's')]) (lower l),
  fun l => searchWord "index" (lower l),
  fun l => searchWord "bibliography" (lower l),
  fun l => searchWord "references" (lower l),
  fun l => searchWord "appendix" (lower l),
  fun l => searchWord "glossary" (lower l),
  fun l => reSearchEnd (seq [lit "contributor".toList, opt (chr 's')]) (lower l),
  fun l => reSearchEnd (seq [lit "editor".toList, opt (chr 's'), opt (chr ':'), .star wsC]) (lower l),
  fun l => reSearch (lit "editorial board".toList) (lower l),
  fun l => reSearch (lit "department of".toList) (lower l),
  fun l => reSearch (lit "university of".toList) (lower l),
  fun l => reSearch (lit "medical center".toList) (lower l),
  fun l => reSearch (lit "division of".toList) (lower l),
  fun l => reSearch (lit "associate professor".toList) (lower l),
  fun l => reSearch (lit "assistant professor".toList) (lower l),
  fun l => reSearch (lit "fellowship".toList) (lower l),
  fun l => reSearch (seq [lit "board of".toList, anyStar, lit "gynecology".toList]) (lower l),
  fun l => reSearch (lit "society of".toList) (lower l)
]

/-- `REFERENCE_PATTERNS`: `^\s*w\s*$` searched case-insensitively, i.e. the
stripped, lowered line equals one of four phrases. -/
def isRefHeadingLine (line : Str) : Bool :=
  let t := strip (lower line)
  t = "references".toList || t = "bibliography".toList ||
  t = "further reading".toList || t = "cited works".toList

/-- `REFERENCE_LIST_INDICATORS`, searched case-sensitively. -/
def referenceListIndicators : List (Str → Bool) := [
  fun l => reMatchPrefix (seq [plus dig, chr '.', plus wsC, upperC]) l,
  fun l => reMatchPrefix (seq [upperC, plus lowerC, plus wsC, upperC]) l,
  fun l => reSearch (seq [chr '(', dig, dig, dig, dig, chr ')']) l,
  fun l => reSearch (lit "et al.".toList) l,
  fun l => reSearch (seq [chr 'J', plus wsC, upperC, plus lowerC]) l,
  fun l => reSearch (lit "doi:".toList) l,
  fun l => reSearch (lit "PMID:".toList) l
]

def isRefListLine (l : Str) : Bool := referenceListIndicators.any (fun p => p l)

/-- `CONTENT_INDICATORS`: ten `\b(w|…)\b` groups. -/
def contentIndicators : List (Str → Bool) := [
  fun l => searchWordAny ["introduction", "overview", "background"] (lower l),
  fun l => searchWordAny ["methods", "methodology", "materials"] (lower l),
  fun l => searchWordAny ["results", "findings", "outcomes"] (lower l),
  fun l => searchWordAny ["discussion", "conclusion"] (lower l),
  fun l => searchWordAny ["treatment", "therapy", "diagnosis"] (lower l),
  fun l => searchWordAny ["pathology", "histology", "epidemiology"] (lower l),
  fun l => searchWordAny ["clinical", "surgical", "medical"] (lower l),
  fun l => searchWordAny ["patient", "tumor", "cancer", "disease"] (lower l),
  fun l => searchWordAny ["cell", "molecular", "genetic", "gene"] (lower l),
  fun l => searchWordAny ["risk", "survival", "prognosis"] (lower l)
]

/-- The density scan of `strip_all_references`: walk the lines counting
consecutive citation-shaped lines; the first time the count reaches 3,
record `i - 2` (the current index minus two).  The source keeps scanning
but the `ref_start_idx is None` guard freezes the first value. -/
def scanRefs : List Str → Nat → Nat → Option Nat
  | [], _, _ => none
  | l :: ls, i, consec =>
    if isRefListLine l then
      if consec + 1 ≥ 3 then some (i - 2)
      else scanRefs ls (i + 1) (consec + 1)
    else scanRefs ls (i + 1) 0

/-- `strip_all_references`.  Note `if ref_start_idx:` in the source is false
both for `None` and for index `0`. -/
def strip_all_references (text : Str) : Str :=
  let lines := splitSep ['\n'] text
  match lines.findIdx? (fun line => isRefHeadingLine line) with
  | some i => strip (joinSep ['\n'] (lines.take i))
  | none =>
    match scanRefs lines 0 0 with
    | some k => if k ≠ 0 then strip (joinSep ['\n'] (lines.take k)) else strip text
    | none => strip text

/-- Whitespace-split scanner (`str.split()` with no argument): words, no
empties; fuel-structural, each step consumes at least one character. -/
def splitWsCore : Nat → Str → List Str
  | 0, s => if s = [] then [] else [s]
  | _ + 1, [] => []
  | fuel + 1, c :: rest =>
    if isWs c then splitWsCore fuel rest
    else ((c :: rest).takeWhile (fun d => !isWs d)) ::
      splitWsCore fuel (rest.dropWhile (fun d => !isWs d))

/-- Whitespace-split (`str.split()` with no argument). -/
def splitWs (s : Str) : List Str := splitWsCore (s.length + 1) s

/-- Keywords of a chapter title: lowered words longer than 3 characters. -/
def keywordsOf (title : Str) : List Str :=
  (splitWs (lower title)).filter (fun w => w.length > 3)

/-- One line reaches 60% keyword coverage (`matches/len(keywords) >= 0.6`,
i.e. `5*matches ≥ 3*len`). -/
def lineMatchesChapter (keywords : List Str) (line : Str) : Bool :=
  let ll := lower line
  let m := keywords.countP (fun kw => containsSub kw ll)
  decide (keywords.length > 0) && decide (5 * m ≥ 3 * keywords.length)

/-- First 15 stripped, non-blank lines of the header-cleaned page text. -/
def cleanLines15 (text : Str) : List Str :=
  ((((splitSep ['\n'] (remove_all_page_headers text)).map strip).filter
      (fun l => l ≠ [])).take 15)

def pageMatchesChapter (title : Str) (pageText : Str) : Bool :=
  (cleanLines15 pageText).any (lineMatchesChapter (keywordsOf title))

/-- `detect_chapter_boundaries`: for each page in order and each chapter not
yet bound, bind the chapter to the page index when a line of the page
reaches 60% keyword coverage.  The `boundaries` dict is modelled as an
insertion-ordered association list. -/
def detect_chapter_boundaries (pages : List Page) (chapter_titles : List Str) :
    List (Nat × Nat) :=
  pages.enum.foldl
    (fun b p =>
      chapter_titles.enum.foldl
        (fun b t =>
          if (b.lookup t.1).isNone && pageMatchesChapter t.2 p.2.text then
            b ++ [(t.1, p.1)]
          else b)
        b)
    []

/-- `is_reference_section`. -/
def is_reference_section (pageText : Str) : Bool :=
  let tl := strip (lower pageText)
  let lines := ((splitSep ['\n'] tl).map strip).filter (fun l => l ≠ [])
  if lines = [] then false
  else if (lines.take 5).any (fun l => isRefHeadingLine l) then true
  else
    let refCount := (lines.map (fun l => referenceListIndicators.countP (fun p => p l))).sum
    decide (lines.length > 5) && decide (5 * refCount > 2 * lines.length)

/-- `calculate_noise_score`, with Python floats replaced by exact rationals.
The counts are over (line, pattern) pairs, exactly as the source's nested
comprehensions count them. -/
def calculate_noise_score (text : Str) : ℚ :=
  if text = [] ∨ (strip text).length < 30 then 1
  else
    let text_lower := strip (lower text)
    let lines := ((splitSep ['\n'] text_lower).map strip).filter (fun l => l ≠ [])
    if lines = [] then 1
    else
      let noise := (lines.map (fun l => noisePatterns.countP (fun p => p l))).sum
      let content := (lines.map (fun l => contentIndicators.countP (fun p => p l))).sum
      let total := lines.length
      let noiseRatio : ℚ := if total > 0 then (noise : ℚ) / total else 0
      let contentRatio : ℚ := if total > 0 then (content : ℚ) / total else 0
      let noiseRatio2 := if text_lower.length < 200 then noiseRatio + 3 / 10 else noiseRatio
      let score := noiseRatio2 - contentRatio * (1 / 2)
      max 0 (min 1 score)

/-- `is_noise_page` with the default threshold 0.4. -/
def is_noise_page (p : Page) : Bool := decide (calculate_noise_score p.text > 2 / 5)

/-- `filter_noise_pages`. -/
def filter_noise_pages (pages : List Page) : List Page :=
  pages.filter (fun p => !is_noise_page p)

/-- `find_reference_start` (with the default `start_idx = 0`). -/
def find_reference_start (pages : List Page) : Option Nat :=
  pages.findIdx? (fun p => is_reference_section p.text)

/-- The content/reference split of `build_structure_with_chapters`
(lines 437-445): `if ref_start_idx:` is false both for `None` and for 0. -/
def split_content_references (clean_pages : List Page) : List Page × List Page :=
  match find_reference_start clean_pages with
  | some i => if i ≠ 0 then (clean_pages.take i, clean_pages.drop i) else (clean_pages, [])
  | none => (clean_pages, [])

end StructureBuilder

/-! ## Embedding of `script/chunker_RAG_PRODUCTION.py` -/

namespace Chunker

open RE PyStr

/-- `HEADER_FOOTER_PATTERNS` (matched with `re.match(…, re.IGNORECASE)`
against the stripped line; the line is lowered, letter classes case-folded).
The first four patterns are unanchored on the right; patterns 5-8 end in `$`. -/
def hfCls : RE := .cls (fun c => c.isAlpha || isWs c)

def matchesHeaderFooter (stripped : Str) : Bool :=
  let t := lower stripped
  reMatchPrefix (seq [plus dig, plus wsC, plus dig, plus wsC, lit "gynecologic".toList,
    plus wsC, lit "oncology".toList]) t ||
  reMatchPrefix (seq [lit "gynecologic".toList, plus wsC, lit "oncology".toList,
    plus wsC, plus dig]) t ||
  reMatchPrefix (seq [plus dig, plus wsC, lit "biology".toList, plus wsC, lit "and".toList,
    plus wsC, lit "genetics".toList, plus wsC, plus dig]) t ||
  reMatchPrefix (seq [lit "biology".toList, plus wsC, lit "and".toList, plus wsC,
    lit "genetics".toList, plus wsC, plus dig]) t ||
  reMatchFull (seq [plus dig, plus wsC, alphaC, plus hfCls, plus wsC, plus dig]) t ||
  reMatchFull (seq [lit "chapter".toList, plus wsC, plus dig, .star wsC]) t ||
  reMatchFull (seq [lit "page".toList, plus wsC, plus dig, .star wsC]) t ||
  reMatchFull (seq [plus dig, .star wsC]) t

/-- `FRONT_MATTER_PATTERNS` (searched with `re.IGNORECASE`). -/
def matchesFrontMatter (stripped : Str) : Bool :=
  let t := lower stripped
  reSearch (seq [chr '©', .star wsC, dig, dig, dig, dig, anyStar, lit "bioscience".toList]) t ||
  reSearch (seq [lit "edited".toList, plus wsC, lit "by".toList, plus wsC, alphaC,
    plus alphaC]) t ||
  reSearch (seq [lit "isbn".toList, .star (.cls (fun c => isWs c || c = ':' || c = '-')),
    plus dig]) t ||
  reSearch (seq [lit "all".toList, plus wsC, lit "rights".toList, plus wsC,
    lit "reserved".toList]) t ||
  reSearch (seq [lit "published".toList, plus wsC, lit "by".toList]) t ||
  reSearch (seq [lit "landes".toList, plus wsC, lit "bioscience".toList]) t ||
  reSearch (lit "springer".toList) t ||
  reSearch (lit "copyright".toList) t ||
  reSearch (seq [lit "printed".toList, plus wsC, lit "in".toList]) t

/-- `remove_noise`: drop blank lines, header/footer lines, front-matter
lines; keep the original (unstripped) text of the remaining lines. -/
def remove_noise (text : Str) : Str :=
  joinSep ['\n'] ((splitSep ['\n'] text).filter (fun line =>
    let stripped := strip line
    !(stripped.isEmpty) && !(matchesHeaderFooter stripped) && !(matchesFrontMatter stripped)))

/-- A table row as detected by `detect_tables`. -/
structure TableRec where
  content : Str
  reference : Option Str
  row_count : Nat
deriving DecidableEq

/-- `line.count("|") >= 2 or line.count("\t") >= 2`. -/
def hasSeparators (line : Str) : Bool :=
  countChar '|' line ≥ 2 || countChar '\t' line ≥ 2

/-- `digit_ratio > 0.3` with `digit_ratio = digits / max(len, 1)`:
exactly `10 * digits > 3 * max(len, 1)`. -/
def digitRatioHigh (line : Str) : Bool :=
  10 * line.countP Char.isDigit > 3 * max line.length 1

def isTableLine (line : Str) : Bool := hasSeparators line || digitRatioHigh line

/-- Length of the greedy match of `Table\s+\d+\.?\d*` (IGNORECASE) starting
exactly at the head of `s`, if any. -/
def tableRefLen (s : Str) : Option Nat :=
  if lower (s.take 5) = "table".toList then
    let rest := s.drop 5
    let wsn := (rest.takeWhile isWs).length
    if wsn = 0 then none
    else
      let rest2 := rest.drop wsn
      let dn := (rest2.takeWhile Char.isDigit).length
      if dn = 0 then none
      else
        match rest2.drop dn with
        | '.' :: rest4 => some (5 + wsn + dn + 1 + (rest4.takeWhile Char.isDigit).length)
        | _ => some (5 + wsn + dn)
  else none

/-- `re.search(r'Table\s+\d+\.?\d*', s, re.IGNORECASE)` with `.group()`:
the leftmost greedy match, in original case. -/
def findTableRef : Str → Option Str
  | [] => none
  | c :: rest =>
    match tableRefLen (c :: rest) with
    | some n => some ((c :: rest).take n)
    | none => findTableRef rest

/-- The accumulation loop of `detect_tables`: state is (remaining lines,
`in_table`, `table_lines`, `table_reference`); returns the detected tables
and the non-table lines.  A trailing run shorter than 2 lines is neither
recorded as a table nor restored into the clean text, exactly as in the
source. -/
def detectTablesAux : List Str → Bool → List Str → Option Str → List TableRec × List Str
  | [], inT, tbl, ref =>
    if inT && decide (tbl.length ≥ 2) then ([⟨joinSep ['\n'] tbl, ref, tbl.length⟩], [])
    else ([], [])
  | line :: rest, inT, tbl, ref =>
    let stripped := strip line
    if (findTableRef stripped).isSome && !inT then
      detectTablesAux rest inT tbl (findTableRef stripped)
    else if isTableLine line then
      detectTablesAux rest true (if inT then tbl ++ [line] else [line]) ref
    else
      if inT then
        let r := detectTablesAux rest false [] none
        if tbl.length ≥ 2 then
          (⟨joinSep ['\n'] tbl, ref, tbl.length⟩ :: r.1, line :: r.2)
        else
          (r.1, tbl ++ line :: r.2)
      else
        let r := detectTablesAux rest false [] ref
        (r.1, line :: r.2)

/-- `detect_tables`. -/
def detect_tables (text : Str) : List TableRec × Str :=
  let r := detectTablesAux (splitSep ['\n'] text) false [] none
  (r.1, joinSep ['\n'] r.2)

/-- The four size parameters of `MedicalChunker.__init__` with their
defaults. -/
structure ChunkerConfig where
  chunk_size : Nat := 325
  chunk_overlap : Nat := 80
  min_chunk_size : Nat := 120
  max_chunk_size : Nat := 400

def defaultConfig : ChunkerConfig := {}

/-- `MedicalChunker.estimate_tokens`: `len(text) // 4`. -/
def estimate_tokens (text : Str) : Nat := text.length / 4

/-- The protected-abbreviation list of `split_sentences`, in the order of
the alternation `(Dr|Mr|Mrs|Ms|Fig|et al|vs|i\.e|e\.g)\.`. -/
def ABBREVS : List Str :=
  ["Dr".toList, "Mr".toList, "Mrs".toList, "Ms".toList, "Fig".toList,
   "et al".toList, "vs".toList, "i.e".toList, "e.g".toList]

/-- `re.sub(r"(Dr|Mr|Mrs|Ms|Fig|et al|vs|i\.e|e\.g)\.", r"\1<DOT>", text)`:
left-to-right, at each position the first alternative whose literal plus a
dot is a prefix fires; scanning resumes after the match. -/
def subAbbrevCore : Nat → Str → Str
  | 0, s => s
  | _ + 1, [] => []
  | fuel + 1, c :: rest =>
    match ABBREVS.find? (fun w => (w ++ ['.']).isPrefixOf (c :: rest)) with
    | some w => w ++ "<DOT>".toList ++ subAbbrevCore fuel (rest.drop w.length)
    | none => c :: subAbbrevCore fuel rest

def subAbbrev (s : Str) : Str := subAbbrevCore (s.length + 1) s

/-- `p.replace("<DOT>", ".")`. -/
def restoreDotsCore : Nat → Str → Str
  | 0, s => s
  | _ + 1, [] => []
  | fuel + 1, c :: rest =>
    if "<DOT>".toList.isPrefixOf (c :: rest) then '.' :: restoreDotsCore fuel (rest.drop 4)
    else c :: restoreDotsCore fuel rest

def restoreDots (s : Str) : Str := restoreDotsCore (s.length + 1) s

def isSentEnd (c : Char) : Bool := c = '.' || c = '!' || c = '?'

/-- The splitter `re.split(r'(?<=[.!?])\s+(?=[A-Z])', text)`: cut at every
maximal whitespace run that is preceded by `.`/`!`/`?` and followed by an
ASCII uppercase letter; `prev` is the last consumed character. -/
def sentSplitCore : Nat → Str → Str → Option Char → List Str
  | 0, s, acc, _ => [acc.reverse ++ s]
  | _ + 1, [], acc, _ => [acc.reverse]
  | fuel + 1, c :: rest, acc, prev =>
    if ((match prev with | some p => isSentEnd p | none => false) && isWs c) = true then
      match (c :: rest).dropWhile isWs with
      | [] => sentSplitCore fuel rest (c :: acc) (some c)
      | d :: tail =>
        if d.isUpper then acc.reverse :: sentSplitCore fuel (d :: tail) [] none
        else sentSplitCore fuel rest (c :: acc) (some c)
    else sentSplitCore fuel rest (c :: acc) (some c)

def sentSplitAux (s : Str) (acc : Str) (prev : Option Char) : List Str :=
  sentSplitCore (s.length + 1) s acc prev

/-- `MedicalChunker.split_sentences`. -/
def split_sentences (text : Str) : List Str :=
  ((sentSplitAux (subAbbrev text) [] none).filter (fun p => strip p ≠ [])).map
    (fun p => strip (restoreDots p))

/-- `MedicalChunker.split_by_paragraph`. -/
def split_by_paragraph (text : Str) : List Str :=
  ((splitSep "\n\n".toList text).map strip).filter (fun p => p ≠ [])

/-- `MedicalChunker.auto_split_oversized`, with explicit fuel.  On every
reachable input the Python recursion strictly decreases the chunk length
(each half is rebuilt from a proper subset of the sentence partition), so
depth `chunk.length + 1` never exhausts; when fuel runs out we return the
chunk unsplit, which preserves content. -/
def auto_split_fuel (cfg : ChunkerConfig) : Nat → Str → List Str
  | 0, chunk => [chunk]
  | fuel + 1, chunk =>
    if estimate_tokens chunk ≤ cfg.max_chunk_size then [chunk]
    else
      let sentences := split_sentences chunk
      if sentences.length ≤ 1 then
        [chunk.take (chunk.length / 2), chunk.drop (chunk.length / 2)]
      else
        let mid := sentences.length / 2
        auto_split_fuel cfg fuel (joinSep [' '] (sentences.take mid)) ++
          auto_split_fuel cfg fuel (joinSep [' '] (sentences.drop mid))

def auto_split_oversized (cfg : ChunkerConfig) (chunk : Str) : List Str :=
  auto_split_fuel cfg (chunk.length + 1) chunk

/-- The flush-or-buffer recursion of `merge_small_chunks`: returns the
emitted chunks and the final unflushed buffer. -/
def mergeCore (cfg : ChunkerConfig) : List Str → List Str → Nat → List Str × List Str
  | [], buffer, _ => ([], buffer)
  | c :: rest, buffer, bt =>
    let t := estimate_tokens c
    if t ≥ cfg.min_chunk_size then
      let r := mergeCore cfg rest [] 0
      if buffer ≠ [] then (joinSep [' '] buffer :: c :: r.1, r.2) else (c :: r.1, r.2)
    else
      let buffer2 := buffer ++ [c]
      let bt2 := bt + t
      if bt2 ≥ cfg.min_chunk_size then
        let r := mergeCore cfg rest [] 0
        (joinSep [' '] buffer2 :: r.1, r.2)
      else mergeCore cfg rest buffer2 bt2

/-- `MedicalChunker.merge_small_chunks`: a trailing undersized buffer is
folded into the last emitted chunk, or kept alone when nothing was
emitted. -/
def merge_small_chunks (cfg : ChunkerConfig) (chunks : List Str) : List Str :=
  if chunks = [] then []
  else
    let r := mergeCore cfg chunks [] 0
    if r.2 ≠ [] then
      match r.1.getLast? with
      | none => [joinSep [' '] r.2]
      | some last => r.1.dropLast ++ [last ++ ' ' :: joinSep [' '] r.2]
    else r.1

/-- Python `" ".join(current)` overlap reconstruction: walk the flushed
buffer backwards, keeping a token-bounded suffix. -/
def overlapAux (cfg : ChunkerConfig) : List Str → List Str → Nat → List Str × Nat
  | [], acc, ot => (acc, ot)
  | s :: rest, acc, ot =>
    let st := estimate_tokens s
    if ot + st ≤ cfg.chunk_overlap then overlapAux cfg rest (s :: acc) (ot + st)
    else (acc, ot)

def overlapOf (cfg : ChunkerConfig) (current : List Str) : List Str × Nat :=
  overlapAux cfg current.reverse [] 0

/-- The sentence-packing loop of `chunk_text` (state: chunks, current,
current token estimate). -/
def sentLoop (cfg : ChunkerConfig) :
    List Str → List Str → List Str → Nat → List Str × List Str × Nat
  | [], chunks, current, ct => (chunks, current, ct)
  | sent :: rest, chunks, current, ct =>
    let st := estimate_tokens sent
    if ct + st > cfg.chunk_size && current ≠ [] then
      let chunks2 := chunks ++ [joinSep [' '] current]
      let ov := overlapOf cfg current
      sentLoop cfg rest chunks2 (ov.1 ++ [sent]) (ov.2 + st)
    else
      sentLoop cfg rest chunks (current ++ [sent]) (ct + st)

/-- The paragraph-packing loop of `chunk_text`. -/
def paraLoop (cfg : ChunkerConfig) :
    List Str → List Str → List Str → Nat → List Str × List Str × Nat
  | [], chunks, current, ct => (chunks, current, ct)
  | para :: rest, chunks, current, ct =>
    let pt := estimate_tokens para
    if pt > cfg.chunk_size then
      let st0 : List Str × List Str × Nat :=
        if current ≠ [] then (chunks ++ [joinSep [' '] current], [], 0)
        else (chunks, current, ct)
      let st1 := sentLoop cfg (split_sentences para) st0.1 st0.2.1 st0.2.2
      paraLoop cfg rest st1.1 st1.2.1 st1.2.2
    else
      if ct + pt > cfg.chunk_size && current ≠ [] then
        let chunks2 := chunks ++ [joinSep [' '] current]
        let lp := (current.getLast?).getD []
        let lt := estimate_tokens lp
        let st0 : List Str × Nat := if lt ≤ cfg.chunk_overlap then ([lp], lt) else ([], 0)
        paraLoop cfg rest chunks2 (st0.1 ++ [para]) (st0.2 + pt)
      else
        paraLoop cfg rest chunks (current ++ [para]) (ct + pt)

/-- `MedicalChunker.chunk_text`. -/
def chunk_text (cfg : ChunkerConfig) (text : Str) : List Str :=
  let t := remove_noise text
  if t = [] ∨ estimate_tokens t < cfg.min_chunk_size then []
  else
    let st := paraLoop cfg (split_by_paragraph t) [] [] 0
    let chunks := if st.2.1 ≠ [] then st.1 ++ [joinSep [' '] st.2.1] else st.1
    let split := chunks.flatMap (fun c =>
      if estimate_tokens c > cfg.max_chunk_size then auto_split_oversized cfg c else [c])
    merge_small_chunks cfg split

end Chunker

/-! ### SHA-256 (for `generate_book_id`)

`hashlib.sha256(name.encode()).hexdigest()` is embedded in full: UTF-8
encoding, padding, message schedule and compression, over `Nat` with
explicit reduction modulo `2^32`. -/

def M32 : Nat := 4294967296

def rotr32 (n x : Nat) : Nat := (x >>> n) ||| ((x <<< (32 - n)) % M32)

def not32 (x : Nat) : Nat := x ^^^ (M32 - 1)

def smallSigma0 (x : Nat) : Nat := rotr32 7 x ^^^ rotr32 18 x ^^^ (x >>> 3)

def smallSigma1 (x : Nat) : Nat := rotr32 17 x ^^^ rotr32 19 x ^^^ (x >>> 10)

def bigSigma0 (x : Nat) : Nat := rotr32 2 x ^^^ rotr32 13 x ^^^ rotr32 22 x

def bigSigma1 (x : Nat) : Nat := rotr32 6 x ^^^ rotr32 11 x ^^^ rotr32 25 x

def chFn (e f g : Nat) : Nat := (e &&& f) ^^^ (not32 e &&& g)

def majFn (a b c : Nat) : Nat := (a &&& b) ^^^ (a &&& c) ^^^ (b &&& c)

def K256 : List Nat := [
  1116352408, 1899447441, 3049323471, 3921009573, 961987163,
  1508970993, 2453635748, 2870763221, 3624381080, 310598401,
  607225278, 1426881987, 1925078388, 2162078206, 2614888103,
  3248222580, 3835390401, 4022224774, 264347078, 604807628,
  770255983, 1249150122, 1555081692, 1996064986, 2554220882,
  2821834349, 2952996808, 3210313671, 3336571891, 3584528711,
  113926993, 338241895, 666307205, 773529912, 1294757372,
  1396182291, 1695183700, 1986661051, 2177026350, 2456956037,
  2730485921, 2820302411, 3259730800, 3345764771, 3516065817,
  3600352804, 4094571909, 275423344, 430227734, 506948616,
  659060556, 883997877, 958139571, 1322822218, 1537002063,
  1747873779, 1955562222, 2024104815, 2227730452, 2361852424,
  2428436474, 2756734187, 3204031479, 3329325298]

structure Hash8 where
  a : Nat
  b : Nat
  c : Nat
  d : Nat
  e : Nat
  f : Nat
  g : Nat
  h : Nat

def sha256Init : Hash8 :=
  ⟨1779033703, 3144134277, 1013904242, 2773480762,
   1359893119, 2600822924, 528734635, 1541459225⟩

/-- Big-endian bytes of `x`, `n` bytes. -/
def bytesBE (n x : Nat) : List Nat :=
  (List.range n).map (fun i => (x >>> (8 * (n - 1 - i))) % 256)

/-- SHA-256 padding of a byte message. -/
def sha256pad (msg : List Nat) : List Nat :=
  msg ++ [128] ++ List.replicate ((119 - msg.length % 64) % 64) 0 ++
    bytesBE 8 (8 * msg.length)

/-- Pack bytes into big-endian 32-bit words. -/
def words4 : List Nat → List Nat
  | b0 :: b1 :: b2 :: b3 :: rest => (((b0 * 256 + b1) * 256 + b2) * 256 + b3) :: words4 rest
  | _ => []

/-- Message-schedule extension, over the reversed word list (head = most
recent word). -/
def extendRev : Nat → List Nat → List Nat
  | 0, wrev => wrev
  | k + 1, wrev =>
    let g := fun (i : Nat) => wrev.getD i 0
    let v := (g 15 + smallSigma0 (g 14) + g 6 + smallSigma1 (g 1)) % M32
    extendRev k (v :: wrev)

def compressRounds : Hash8 → List (Nat × Nat) → Hash8
  | st, [] => st
  | st, (w, k) :: rest =>
    let t1 := (st.h + bigSigma1 st.e + chFn st.e st.f st.g + k + w) % M32
    let t2 := (bigSigma0 st.a + majFn st.a st.b st.c) % M32
    compressRounds ⟨(t1 + t2) % M32, st.a, st.b, st.c, (st.d + t1) % M32, st.e, st.f, st.g⟩ rest

def addState (x y : Hash8) : Hash8 :=
  ⟨(x.a + y.a) % M32, (x.b + y.b) % M32, (x.c + y.c) % M32, (x.d + y.d) % M32,
   (x.e + y.e) % M32, (x.f + y.f) % M32, (x.g + y.g) % M32, (x.h + y.h) % M32⟩

def processBlocksCore : Nat → List Nat → Hash8 → Hash8
  | 0, _, st => st
  | _ + 1, [], st => st
  | fuel + 1, w0 :: ws, st =>
    let blk := (w0 :: ws).take 16
    let w64 := (extendRev 48 blk.reverse).reverse
    let st2 := compressRounds st (w64.zip K256)
    processBlocksCore fuel (ws.drop 15) (addState st st2)

def processBlocks (ws : List Nat) (st : Hash8) : Hash8 :=
  processBlocksCore (ws.length + 1) ws st

def hexDigitChar (n : Nat) : Char :=
  if n < 10 then Char.ofNat ('0'.toNat + n) else Char.ofNat ('a'.toNat + n - 10)

/-- Eight lowercase hex digits, big-endian. -/
def hex8 (x : Nat) : Str :=
  (List.range 8).map (fun i => hexDigitChar ((x >>> (4 * (7 - i))) % 16))

/-- `hashlib.sha256(bytes).hexdigest()`. -/
def sha256hex (msg : List Nat) : Str :=
  let st := processBlocks (words4 (sha256pad msg)) sha256Init
  hex8 st.a ++ hex8 st.b ++ hex8 st.c ++ hex8 st.d ++
  hex8 st.e ++ hex8 st.f ++ hex8 st.g ++ hex8 st.h

/-- Python `str.encode()` (UTF-8). -/
def encodeChar (c : Char) : List Nat :=
  let n := c.toNat
  if n < 0x80 then [n]
  else if n < 0x800 then [0xC0 + n / 64, 0x80 + n % 64]
  else if n < 0x10000 then [0xE0 + n / 4096, 0x80 + (n / 64) % 64, 0x80 + n % 64]
  else [0xF0 + n / 262144, 0x80 + (n / 4096) % 64, 0x80 + (n / 64) % 64, 0x80 + n % 64]

def utf8Encode (s : Str) : List Nat := s.flatMap encodeChar

namespace Chunker

/-- The fixed 62-character alphabet of `generate_book_id`. -/
def idAlphabet : Str :=
  "0123456789ABCDEFGHIJKLMNOPQRSTUVWXYZabcdefghijklmnopqrstuvwxyz".toList

/-- Value of a lowercase hex digit. -/
def hexVal (c : Char) : Nat :=
  if c.isDigit then c.toNat - '0'.toNat else c.toNat - 'a'.toNat + 10

/-- The pair-consuming loop of `generate_book_id`: `int(h[i:i+2], 16) % 62`
indexes the alphabet; stop after `n` output characters (the source breaks at
21).  A trailing odd hex digit, were one to occur, is consumed alone, as
Python's slice `h[i:i+2]` would produce it. -/
def genFrom : Str → Nat → Str
  | _, 0 => []
  | [], _ + 1 => []
  | [a], _ + 1 => [idAlphabet.getD (hexVal a % 62) '0']
  | a :: b :: rest, n + 1 =>
    idAlphabet.getD ((hexVal a * 16 + hexVal b) % 62) '0' :: genFrom rest n

/-- `generate_book_id`. -/
def generate_book_id (book_name : Str) : Str :=
  genFrom (sha256hex (utf8Encode book_name)) 21

/-! ### The per-item loop of `chunk_structure_file` -/

/-- A chapter/section item of a structure file; only `full_text` influences
which chunks are produced (the remaining metadata fields — titles, page
ranges, book identifiers — are copied verbatim into every record of the
item and are omitted from the embedding). -/
structure Item where
  full_text : Str

inductive ChunkType where
  | text
  | table
deriving DecidableEq

/-- The claim-relevant projection of a chunk record: its text, global index,
type, `has_overlap` flag and table reference. -/
structure ChunkRec where
  text : Str
  chunk_index : Nat
  chunk_type : ChunkType
  has_overlap : Bool
  table_reference : Option Str
deriving DecidableEq

/-- The records contributed by one item, given the running global chunk
index: items whose `full_text` is missing/empty (`not text`) or shorter
than 500 characters are skipped before table detection; table chunks come
first with `has_overlap = False`; text chunks follow with
`has_overlap = i > 0`. -/
def item_records (item : Item) (gidx : Nat) : List ChunkRec :=
  let t := item.full_text
  if t = [] ∨ t.length < 500 then []
  else
    let r := detect_tables t
    let tableRecs := r.1.enum.map (fun p =>
      { text := p.2.content, chunk_index := gidx + p.1, chunk_type := ChunkType.table,
        has_overlap := false, table_reference := p.2.reference : ChunkRec })
    let textChunks := chunk_text defaultConfig r.2
    let textRecs := textChunks.enum.map (fun p =>
      { text := p.2, chunk_index := gidx + r.1.length + p.1, chunk_type := ChunkType.text,
        has_overlap := decide (p.1 > 0), table_reference := none : ChunkRec })
    tableRecs ++ textRecs

/-- The full record list of `chunk_structure_file` over the item list,
threading the global index. -/
def chunk_structure_records (items : List Item) : List ChunkRec :=
  (items.foldl
    (fun st item =>
      let rs := item_records item st.2
      (st.1 ++ rs, st.2 + rs.length))
    (([] : List ChunkRec), 0)).1

end Chunker

/-! ## Spec-side definitions

Definitions in this section follow the wording of the specification and of
the claims (not the code); they are compared against the source-derived
definitions above. -/

namespace SpecSide

/-- From the spec's wording for the density heuristic: the line index at
which the first run of 3 consecutive citation-shaped lines begins. -/
def firstCitationRun3 : List Str → Option Nat
  | l0 :: l1 :: l2 :: rest =>
    if StructureBuilder.isRefListLine l0 && StructureBuilder.isRefListLine l1 &&
        StructureBuilder.isRefListLine l2 then some 0
    else (firstCitationRun3 (l1 :: l2 :: rest)).map (fun k => k + 1)
  | _ => none

/-- From the claim's wording for C6: the noise score as the fraction of
non-blank lines matching at least one noise pattern, minus half the
fraction matching at least one content pattern, plus a flat 0.3 penalty
under 200 characters, clamped to [0, 1]; 1.0 when there is no non-blank
line. -/
def claimNoiseScore (text : Str) : ℚ :=
  let text_lower := PyStr.strip (PyStr.lower text)
  let lines := ((PyStr.splitSep ['\n'] text_lower).map PyStr.strip).filter
    (fun l => l ≠ [])
  if lines = [] then 1
  else
    let noiseLines := lines.countP
      (fun l => StructureBuilder.noisePatterns.any (fun p => p l))
    let contentLines := lines.countP
      (fun l => StructureBuilder.contentIndicators.any (fun p => p l))
    let total := lines.length
    let noiseRatio : ℚ := (noiseLines : ℚ) / total
    let contentRatio : ℚ := (contentLines : ℚ) / total
    let noiseRatio2 := if text_lower.length < 200 then noiseRatio + 3 / 10 else noiseRatio
    max 0 (min 1 (noiseRatio2 - contentRatio * (1 / 2)))


/-- The non-blank stripped lines that `calculate_noise_score` scores. -/
def scoreLines (text : Str) : List Str :=
  ((PyStr.splitSep ['\n'] (PyStr.strip (PyStr.lower text))).map PyStr.strip).filter
    (fun l => l ≠ [])

/-- Number of (line, noise-pattern) matching pairs, as the source's nested
comprehensions count them. -/
def noisePairs (text : Str) : Nat :=
  ((scoreLines text).map (fun l => StructureBuilder.noisePatterns.countP (fun p => p l))).sum

/-- Number of (line, content-pattern) matching pairs. -/
def contentPairs (text : Str) : Nat :=
  ((scoreLines text).map
    (fun l => StructureBuilder.contentIndicators.countP (fun p => p l))).sum

end SpecSide


/-! ## Helper lemmas -/

theorem hex8_length (x : Nat) : (hex8 x).length = 8 := by
  simp [hex8]

theorem sha256hex_length (msg : List Nat) : (sha256hex msg).length = 64 := by
  simp [sha256hex, hex8_length]

namespace Chunker

theorem idAlphabet_length : idAlphabet.length = 62 := by decide

theorem idAlphabet_getD_mem {k : Nat} (hk : k < 62) : idAlphabet.getD k '0' ∈ idAlphabet := by
  rw [List.getD_eq_getElem?_getD]
  have hlt : k < idAlphabet.length := by rw [idAlphabet_length]; exact hk
  rw [List.getElem?_eq_getElem hlt]
  exact List.getElem_mem hlt

theorem genFrom_length : ∀ (n : Nat) (h : Str), (genFrom h n).length = min n ((h.length + 1) / 2)
  | 0, h => by simp [genFrom]
  | n + 1, [] => by simp [genFrom]
  | n + 1, [a] => by simp [genFrom]
  | n + 1, a :: b :: rest => by
    have ih := genFrom_length n rest
    simp only [genFrom, List.length_cons, ih]
    omega

theorem genFrom_mem : ∀ (n : Nat) (h : Str) (c : Char), c ∈ genFrom h n → c ∈ idAlphabet
  | 0, h, c => by simp [genFrom]
  | n + 1, [], c => by simp [genFrom]
  | n + 1, [a], c => by
    intro hc
    simp only [genFrom, List.mem_singleton] at hc
    subst hc
    exact idAlphabet_getD_mem (Nat.mod_lt _ (by omega))
  | n + 1, a :: b :: rest, c => by
    intro hc
    simp only [genFrom, List.mem_cons] at hc
    rcases hc with hc | hc
    · subst hc
      exact idAlphabet_getD_mem (Nat.mod_lt _ (by omega))
    · exact genFrom_mem n rest c hc

end Chunker

/-! ## Claims -/

/-- Claim C9: `generate_book_id` is a pure deterministic function: identical
inputs give identical results, and the result is always exactly 21
characters long, each drawn from the fixed 62-character alphanumeric
alphabet. -/
theorem generate_book_id_pure_21_alphabet (s t : Str) (hst : s = t) :
    Chunker.generate_book_id s = Chunker.generate_book_id t ∧
    (Chunker.generate_book_id s).length = 21 ∧
    ∀ c ∈ Chunker.generate_book_id s, c ∈ Chunker.idAlphabet := by
  subst hst
  refine ⟨rfl, ?_, ?_⟩
  · unfold Chunker.generate_book_id
    rw [Chunker.genFrom_length, sha256hex_length]
    omega
  · intro c hc
    exact Chunker.genFrom_mem 21 _ c hc

/-- Witness for C9 at the concrete book name `"Same Title"`. -/
theorem generate_book_id_pure_21_alphabet_witness :
    ("Same Title".toList : Str) = "Same Title".toList ∧
    ((Chunker.generate_book_id "Same Title".toList =
        Chunker.generate_book_id "Same Title".toList) ∧
      (Chunker.generate_book_id "Same Title".toList).length = 21 ∧
      ∀ c ∈ Chunker.generate_book_id "Same Title".toList, c ∈ Chunker.idAlphabet) :=
  ⟨rfl, generate_book_id_pure_21_alphabet "Same Title".toList "Same Title".toList rfl⟩

/-- Claim C10: an item whose `full_text` is missing, empty, or shorter than
500 characters contributes no chunk records at all — neither table- nor
text-typed — and is skipped before table detection; removing such an item
from the item list leaves the output of the whole file unchanged. -/
theorem short_item_emits_no_chunks (item : Chunker.Item)
    (hshort : item.full_text.length < 500) :
    (∀ gidx : Nat, Chunker.item_records item gidx = []) ∧
    ∀ pre post : List Chunker.Item,
      Chunker.chunk_structure_records (pre ++ item :: post) =
        Chunker.chunk_structure_records (pre ++ post) := by
  have hrec : ∀ gidx : Nat, Chunker.item_records item gidx = [] := by
    intro gidx
    unfold Chunker.item_records
    rw [if_pos (Or.inr hshort)]
  refine ⟨hrec, ?_⟩
  intro pre post
  unfold Chunker.chunk_structure_records
  rw [List.foldl_append, List.foldl_append]
  congr 1
  set st := List.foldl _ (([] : List Chunker.ChunkRec), 0) pre with hst
  show List.foldl _ st (item :: post) = List.foldl _ st post
  rw [List.foldl_cons]
  congr 1
  rw [hrec st.2]
  simp

/-- Witness for C10 at a concrete 5-character item. -/
theorem short_item_emits_no_chunks_witness :
    ("short".toList.length < 500) ∧
    Chunker.item_records ⟨"short".toList⟩ 0 = [] :=
  ⟨by decide, (short_item_emits_no_chunks ⟨"short".toList⟩ (by decide)).1 0⟩

/-- Claim C3 counterexample: on a page list whose first page is a reference
heading page, the detector fires first at index 0, yet the source's
`if ref_start_idx:` keeps all pages as content and leaves the reference
slice empty — not the split at index 0 the claim asserts. -/
theorem reference_split_at_zero_counterexample :
    StructureBuilder.find_reference_start [⟨1, "References".toList⟩] = some 0 ∧
    StructureBuilder.split_content_references [⟨1, "References".toList⟩] =
      ([⟨1, "References".toList⟩], []) ∧
    StructureBuilder.split_content_references [⟨1, "References".toList⟩] ≠
      ([], [⟨1, "References".toList⟩]) := by
  refine ⟨by decide, by decide, by decide⟩

/-- Claim C3 (amended): if the reference-page detector fires first at page
index `p ≥ 1`, the content slice is exactly the pages before `p` and the
reference slice exactly the pages from `p` on; if it fires first at index 0,
or on no page, all pages are content and the reference slice is empty
(`if ref_start_idx:` in the source treats index 0 like `None`).  Moreover
`find_reference_start` returns precisely the first index whose page is
detected as a reference section. -/
theorem reference_split_behavior (pages : List StructureBuilder.Page) :
    (StructureBuilder.find_reference_start pages = none →
      StructureBuilder.split_content_references pages = (pages, [])) ∧
    (∀ p : Nat, StructureBuilder.find_reference_start pages = some p →
      (∃ pg, pages[p]? = some pg ∧ StructureBuilder.is_reference_section pg.text = true) ∧
      (∀ j, j < p → ∀ pg, pages[j]? = some pg →
        StructureBuilder.is_reference_section pg.text = false) ∧
      (p ≠ 0 →
        StructureBuilder.split_content_references pages = (pages.take p, pages.drop p)) ∧
      (p = 0 → StructureBuilder.split_content_references pages = (pages, []))) := by
  constructor
  · intro hnone
    unfold StructureBuilder.split_content_references
    rw [hnone]
  · intro p hp
    have hchar := List.findIdx?_eq_some_iff_getElem.mp hp
    obtain ⟨hlt, hmatch, hearly⟩ := hchar
    refine ⟨?_, ?_, ?_, ?_⟩
    · refine ⟨pages[p], ?_, hmatch⟩
      exact List.getElem?_eq_getElem hlt
    · intro j hj pg hpg
      have hjlt : j < pages.length := Nat.lt_trans hj hlt
      have := hearly j hj
      rw [List.getElem?_eq_getElem hjlt] at hpg
      cases hpg
      simpa using this
    · intro hp0
      unfold StructureBuilder.split_content_references
      rw [hp]
      simp [hp0]
    · intro hp0
      unfold StructureBuilder.split_content_references
      rw [hp]
      simp [hp0]

/-- Witness for C3 (amended) on a two-page list whose second page is the
reference heading: the split happens at index 1. -/
theorem reference_split_behavior_witness :
    StructureBuilder.find_reference_start
        [⟨1, "patient text".toList⟩, ⟨2, "References".toList⟩] = some 1 ∧
    StructureBuilder.split_content_references
        [⟨1, "patient text".toList⟩, ⟨2, "References".toList⟩] =
      ([⟨1, "patient text".toList⟩], [⟨2, "References".toList⟩]) := by
  have h := (reference_split_behavior
    [⟨1, "patient text".toList⟩, ⟨2, "References".toList⟩]).2 1 (by decide)
  refine ⟨by decide, ?_⟩
  have := h.2.2.1 (by decide)
  simpa using this


namespace SpecSide

theorem firstRun_cons_neg1 (a : Str) (tl : List Str)
    (ha : StructureBuilder.isRefListLine a = false) :
    firstCitationRun3 (a :: tl) = (firstCitationRun3 tl).map (fun k => k + 1) := by
  match tl with
  | [] => simp [firstCitationRun3]
  | [b] => simp [firstCitationRun3]
  | b :: c :: tl3 => simp [firstCitationRun3, ha]

theorem firstRun_cons_neg2 (a b : Str) (tl : List Str)
    (hb : StructureBuilder.isRefListLine b = false) :
    firstCitationRun3 (a :: b :: tl) = (firstCitationRun3 (b :: tl)).map (fun k => k + 1) := by
  match tl with
  | [] => simp [firstCitationRun3]
  | c :: tl3 => simp [firstCitationRun3, hb]

theorem firstRun_cons_neg3 (a b c : Str) (tl : List Str)
    (hc : StructureBuilder.isRefListLine c = false) :
    firstCitationRun3 (a :: b :: c :: tl) =
      (firstCitationRun3 (b :: c :: tl)).map (fun k => k + 1) := by
  simp [firstCitationRun3, hc]

theorem scanRefs_step_ref_lt3 (l : Str) (ls : List Str) (i c : Nat)
    (hl : StructureBuilder.isRefListLine l = true) (hc : c + 1 < 3) :
    StructureBuilder.scanRefs (l :: ls) i c = StructureBuilder.scanRefs ls (i + 1) (c + 1) := by
  unfold StructureBuilder.scanRefs
  rw [if_pos hl, if_neg (by omega)]
  cases ls <;> rfl

theorem scanRefs_step_ref_ge3 (l : Str) (ls : List Str) (i c : Nat)
    (hl : StructureBuilder.isRefListLine l = true) (hc : c + 1 ≥ 3) :
    StructureBuilder.scanRefs (l :: ls) i c = some (i - 2) := by
  unfold StructureBuilder.scanRefs
  rw [if_pos hl, if_pos hc]

theorem scanRefs_step_notref (l : Str) (ls : List Str) (i c : Nat)
    (hl : StructureBuilder.isRefListLine l = false) :
    StructureBuilder.scanRefs (l :: ls) i c = StructureBuilder.scanRefs ls (i + 1) 0 := by
  unfold StructureBuilder.scanRefs
  rw [if_neg (by simp [hl])]
  cases ls <;> rfl

theorem map_add_comp (X : Option Nat) (a b : Nat) :
    (X.map (fun k => k + a)).map (fun k => k + b) = X.map (fun k => k + (a + b)) := by
  cases X <;> simp <;> omega

/-- The imperative consecutive-counter scan of `strip_all_references`
computes exactly the first index at which a run of three consecutive
citation-shaped lines begins. -/
theorem scanRefs_eq_firstRun :
    ∀ (n : Nat) (ls : List Str), ls.length ≤ n → ∀ (i : Nat),
    StructureBuilder.scanRefs ls i 0 = (firstCitationRun3 ls).map (fun k => k + i)
  | 0, ls, hn, i => by
    have hls : ls = [] := List.eq_nil_of_length_eq_zero (Nat.le_zero.mp hn)
    subst hls
    simp [StructureBuilder.scanRefs, firstCitationRun3]
  | n + 1, [], hn, i => by simp [StructureBuilder.scanRefs, firstCitationRun3]
  | n + 1, a :: tl, hn, i => by
    by_cases ha : StructureBuilder.isRefListLine a = true
    · match tl with
      | [] =>
        rw [scanRefs_step_ref_lt3 a [] i 0 ha (by omega)]
        simp [StructureBuilder.scanRefs, firstCitationRun3]
      | [b] =>
        by_cases hb : StructureBuilder.isRefListLine b = true
        · rw [scanRefs_step_ref_lt3 a [b] i 0 ha (by omega),
            scanRefs_step_ref_lt3 b [] (i + 1) 1 hb (by omega)]
          simp [StructureBuilder.scanRefs, firstCitationRun3]
        · rw [scanRefs_step_ref_lt3 a [b] i 0 ha (by omega)]
          rw [scanRefs_step_notref b [] (i + 1) 1 (by simpa using hb)]
          simp [StructureBuilder.scanRefs, firstCitationRun3]
      | b :: c :: tl3 =>
        have hlen : tl3.length ≤ n := by
          simp only [List.length_cons] at hn
          omega
        by_cases hb : StructureBuilder.isRefListLine b = true
        · by_cases hc : StructureBuilder.isRefListLine c = true
          · rw [scanRefs_step_ref_lt3 a (b :: c :: tl3) i 0 ha (by omega),
              scanRefs_step_ref_lt3 b (c :: tl3) (i + 1) 1 hb (by omega),
              scanRefs_step_ref_ge3 c tl3 (i + 2) 2 hc (by omega)]
            simp only [firstCitationRun3, ha, hb, hc]
            simp
          · have hcf : StructureBuilder.isRefListLine c = false := by simpa using hc
            rw [scanRefs_step_ref_lt3 a (b :: c :: tl3) i 0 ha (by omega),
              scanRefs_step_ref_lt3 b (c :: tl3) (i + 1) 1 hb (by omega),
              scanRefs_step_notref c tl3 (i + 2) 2 hcf,
              scanRefs_eq_firstRun n tl3 hlen (i + 3)]
            rw [firstRun_cons_neg3 a b c tl3 hcf, firstRun_cons_neg2 b c tl3 hcf,
              firstRun_cons_neg1 c tl3 hcf]
            rw [map_add_comp, map_add_comp, map_add_comp]
            congr 1
            funext k
            omega
        · have hbf : StructureBuilder.isRefListLine b = false := by simpa using hb
          have hlen2 : (c :: tl3).length ≤ n := by
            simp only [List.length_cons] at hn ⊢
            omega
          rw [scanRefs_step_ref_lt3 a (b :: c :: tl3) i 0 ha (by omega),
            scanRefs_step_notref b (c :: tl3) (i + 1) 1 hbf,
            scanRefs_eq_firstRun n (c :: tl3) hlen2 (i + 2)]
          rw [firstRun_cons_neg2 a b (c :: tl3) hbf, firstRun_cons_neg1 b (c :: tl3) hbf]
          rw [map_add_comp, map_add_comp]
          congr 1
          funext k
          omega
    · have haf : StructureBuilder.isRefListLine a = false := by simpa using ha
      have hlen : tl.length ≤ n := by
        simp only [List.length_cons] at hn
        omega
      rw [scanRefs_step_notref a tl i 0 haf, scanRefs_eq_firstRun n tl hlen (i + 1)]
      rw [firstRun_cons_neg1 a tl haf, map_add_comp]
      congr 1
      funext k
      omega

end SpecSide

/-- Claim C4 counterexample: with no reference-heading line and the first
run of 3 consecutive citation-shaped lines beginning at line index 2,
`strip_all_references` keeps the first two lines (`"alpha\nbeta"`), i.e. it
cuts at the run start itself — not at index `k - 2 = 0` as the claim
asserts. -/
theorem strip_density_offset_counterexample :
    (∀ line ∈ PyStr.splitSep ['\n'] "alpha\nbeta\n(1999)\n(1998)\n(1997)".toList,
      StructureBuilder.isRefHeadingLine line = false) ∧
    SpecSide.firstCitationRun3
      (PyStr.splitSep ['\n'] "alpha\nbeta\n(1999)\n(1998)\n(1997)".toList) = some 2 ∧
    StructureBuilder.strip_all_references "alpha\nbeta\n(1999)\n(1998)\n(1997)".toList =
      "alpha\nbeta".toList ∧
    StructureBuilder.strip_all_references "alpha\nbeta\n(1999)\n(1998)\n(1997)".toList ≠
      PyStr.strip (PyStr.joinSep ['\n']
        ((PyStr.splitSep ['\n'] "alpha\nbeta\n(1999)\n(1998)\n(1997)".toList).take (2 - 2))) := by
  refine ⟨by decide, by decide, by decide, by decide⟩

/-- Claim C4 (amended): in a text with no reference-heading line, if the
first run of 3 consecutive citation-shaped lines begins at line index `k`,
then `strip_all_references` returns exactly the lines before index `k`
(the run start itself, stripped) when `k ≥ 1`, and the whole text
(stripped) when `k = 0` — the source records `i - 2` at the third line of
the run, which is the run start, and its `if ref_start_idx:` treats 0 like
`None`. -/
theorem strip_density_behavior (text : Str)
    (hnohead : ∀ line ∈ PyStr.splitSep ['\n'] text,
      StructureBuilder.isRefHeadingLine line = false)
    (k : Nat)
    (hrun : SpecSide.firstCitationRun3 (PyStr.splitSep ['\n'] text) = some k) :
    (k ≠ 0 → StructureBuilder.strip_all_references text =
      PyStr.strip (PyStr.joinSep ['\n'] ((PyStr.splitSep ['\n'] text).take k))) ∧
    (k = 0 → StructureBuilder.strip_all_references text = PyStr.strip text) := by
  have hfind : (PyStr.splitSep ['\n'] text).findIdx?
      (fun line => StructureBuilder.isRefHeadingLine line) = none := by
    rw [List.findIdx?_eq_none_iff]
    intro x hx
    simpa using hnohead x hx
  have hscan : StructureBuilder.scanRefs (PyStr.splitSep ['\n'] text) 0 0 = some k := by
    rw [SpecSide.scanRefs_eq_firstRun (PyStr.splitSep ['\n'] text).length _ le_rfl 0, hrun]
    simp
  constructor
  · intro hk0
    unfold StructureBuilder.strip_all_references
    simp only [hfind, hscan]
    rw [if_pos hk0]
  · intro hk0
    unfold StructureBuilder.strip_all_references
    simp only [hfind, hscan]
    rw [if_neg (by simp [hk0])]

/-- Witness for C4 (amended) at the counterexample text, where `k = 2`. -/
theorem strip_density_behavior_witness :
    StructureBuilder.strip_all_references "alpha\nbeta\n(1999)\n(1998)\n(1997)".toList =
      PyStr.strip (PyStr.joinSep ['\n']
        ((PyStr.splitSep ['\n'] "alpha\nbeta\n(1999)\n(1998)\n(1997)".toList).take 2)) :=
  (strip_density_behavior "alpha\nbeta\n(1999)\n(1998)\n(1997)".toList
    (by decide) 2 (by decide)).1 (by decide)

namespace StructureBuilder

/-- Claim C5 counterexample: with titles `["zzzz", "aaaa"]` over pages
`["aaaa", "zzzz"]`, chapter 0 is detected at page index 1 and chapter 1 at
page index 0 — the start indices in ordinal order are `[1, 0]`, a
decreasing sequence. -/
theorem boundaries_not_monotone_counterexample :
    detect_chapter_boundaries [⟨1, "aaaa".toList⟩, ⟨2, "zzzz".toList⟩]
        ["zzzz".toList, "aaaa".toList] = [(1, 0), (0, 1)] ∧
    (detect_chapter_boundaries [⟨1, "aaaa".toList⟩, ⟨2, "zzzz".toList⟩]
        ["zzzz".toList, "aaaa".toList]).lookup 0 = some 1 ∧
    (detect_chapter_boundaries [⟨1, "aaaa".toList⟩, ⟨2, "zzzz".toList⟩]
        ["zzzz".toList, "aaaa".toList]).lookup 1 = some 0 ∧
    ¬ ((1 : Nat) ≤ 0) := by
  refine ⟨by decide, by decide, by decide, by decide⟩

/-- The inner fold of `detect_chapter_boundaries` (over the chapter list,
for one page) binds `ci` to this page exactly when `ci` is unbound and some
enumerated title with index `ci` matches the page. -/
theorem innerFold_lookup (ptext : Str) (pidx : Nat) :
    ∀ (ts : List (Nat × Str)) (b : List (Nat × Nat)) (ci : Nat),
    (ts.foldl (fun b t =>
        if (b.lookup t.1).isNone && pageMatchesChapter t.2 ptext then
          b ++ [(t.1, pidx)]
        else b) b).lookup ci =
    (b.lookup ci).or
      (if ts.any (fun t => t.1 == ci && pageMatchesChapter t.2 ptext) then some pidx
       else none)
  | [], b, ci => by simp
  | t :: ts, b, ci => by
    rw [List.foldl_cons]
    by_cases hg : ((b.lookup t.1).isNone && pageMatchesChapter t.2 ptext) = true
    · rw [if_pos hg]
      rw [innerFold_lookup ptext pidx ts (b ++ [(t.1, pidx)]) ci]
      simp only [Bool.and_eq_true, Option.isNone_iff_eq_none] at hg
      by_cases hci : t.1 = ci
      · subst hci
        rw [List.lookup_append, hg.1, Option.none_or, List.lookup_cons_self]
        simp only [Option.or_some, Option.none_or]
        have hany : ((t :: ts).any fun x => x.1 == t.1 && pageMatchesChapter x.2 ptext) =
            true := by
          simp [List.any_cons, hg.2]
        rw [if_pos hany]
      · have hlk : (b ++ [(t.1, pidx)]).lookup ci = b.lookup ci := by
          rw [List.lookup_append]
          have hnone : ([(t.1, pidx)] : List (Nat × Nat)).lookup ci = none := by
            have hne : (ci == t.1) = false := beq_eq_false_iff_ne.mpr (fun h => hci h.symm)
            simp [List.lookup_cons, hne]
          rw [hnone]
          cases b.lookup ci <;> simp
        rw [hlk]
        have hany : ((t :: ts).any fun x => x.1 == ci && pageMatchesChapter x.2 ptext) =
            (ts.any fun x => x.1 == ci && pageMatchesChapter x.2 ptext) := by
          simp [List.any_cons, hci]
        rw [hany]
    · rw [if_neg hg]
      rw [innerFold_lookup ptext pidx ts b ci]
      cases hbc : b.lookup ci
      · simp only [Option.none_or]
        have hhead : (t.1 == ci && pageMatchesChapter t.2 ptext) = false := by
          by_cases heq : t.1 = ci
          · subst heq
            have hnone : b.lookup t.1 = none := hbc
            by_cases hm : pageMatchesChapter t.2 ptext = true
            · exfalso
              apply hg
              simp [hnone, hm]
            · simp only [Bool.not_eq_true] at hm
              simp [hm]
          · have hne : (t.1 == ci) = false := beq_eq_false_iff_ne.mpr heq
            simp [hne]
        rw [List.any_cons, hhead, Bool.false_or]
      · simp

/-- The outer fold of `detect_chapter_boundaries`: the binding for `ci` is
the first page (in order) on which some enumerated title with index `ci`
matches. -/
theorem outerFold_lookup (titles : List Str) :
    ∀ (ps : List (Nat × Page)) (b : List (Nat × Nat)) (ci : Nat),
    (ps.foldl (fun b p =>
        titles.enum.foldl (fun b t =>
          if (b.lookup t.1).isNone && pageMatchesChapter t.2 p.2.text then
            b ++ [(t.1, p.1)]
          else b) b) b).lookup ci =
    (b.lookup ci).or
      (ps.findSome? (fun p =>
        if titles.enum.any (fun t => t.1 == ci && pageMatchesChapter t.2 p.2.text) then
          some p.1
        else none))
  | [], b, ci => by simp
  | p :: ps, b, ci => by
    rw [List.foldl_cons, outerFold_lookup titles ps _ ci,
      innerFold_lookup p.2.text p.1 titles.enum b ci, List.findSome?_cons]
    cases hbc : b.lookup ci <;>
      cases hif : (if (titles.enum.any fun t =>
          t.1 == ci && pageMatchesChapter t.2 p.2.text) = true
        then some p.1 else none) <;>
      simp [Option.or, hif]

theorem enumFrom_any_iff (P : Str → Bool) (ci : Nat) :
    ∀ (titles : List Str) (n : Nat),
    ((titles.enumFrom n).any (fun t => t.1 == ci && P t.2) = true) ↔
    (∃ j, j < titles.length ∧ n + j = ci ∧ P (titles.getD j []) = true)
  | [], n => by simp
  | x :: xs, n => by
    rw [List.enumFrom_cons, List.any_cons]
    constructor
    · intro h
      simp only [Bool.or_eq_true] at h
      rcases h with h | h
      · simp only [Bool.and_eq_true, beq_iff_eq] at h
        exact ⟨0, by simp, by omega, by simpa using h.2⟩
      · obtain ⟨j, hj, hnj, hP⟩ := (enumFrom_any_iff P ci xs (n + 1)).mp h
        exact ⟨j + 1, by simp; omega, by omega, by simpa using hP⟩
    · rintro ⟨j, hj, hnj, hP⟩
      match j with
      | 0 =>
        simp only [Bool.or_eq_true]
        left
        simp only [Bool.and_eq_true, beq_iff_eq]
        exact ⟨by omega, by simpa using hP⟩
      | j + 1 =>
        simp only [Bool.or_eq_true]
        right
        exact (enumFrom_any_iff P ci xs (n + 1)).mpr
          ⟨j, by simp at hj; omega, by omega, by simpa using hP⟩

theorem findSome_enumFrom_first (P : Page → Bool) :
    ∀ (pages : List Page) (n idx : Nat),
    ((pages.enumFrom n).findSome? (fun p => if P p.2 then some p.1 else none) = some idx) ↔
    (∃ j, j < pages.length ∧ n + j = idx ∧ P (pages.getD j ⟨0, []⟩) = true ∧
      ∀ m, m < j → P (pages.getD m ⟨0, []⟩) = false)
  | [], n, idx => by simp
  | pg :: pages, n, idx => by
    rw [List.enumFrom_cons, List.findSome?_cons]
    by_cases hP : P pg = true
    · rw [hP]
      simp only [if_true, Option.some.injEq]
      constructor
      · intro h
        exact ⟨0, by simp, by omega, by simpa using hP, by omega⟩
      · rintro ⟨j, hj, hnj, hPj, hfirst⟩
        match j with
        | 0 => omega
        | j + 1 =>
          have := hfirst 0 (by omega)
          simp only [List.getD_cons_zero] at this
          rw [hP] at this
          cases this
    · rw [if_neg hP]
      simp only [Bool.not_eq_true] at hP
      rw [findSome_enumFrom_first P pages (n + 1) idx]
      constructor
      · rintro ⟨j, hj, hnj, hPj, hfirst⟩
        refine ⟨j + 1, by simp; omega, by omega, by simpa using hPj, ?_⟩
        intro m hm
        match m with
        | 0 => simpa using hP
        | m + 1 =>
          have := hfirst m (by omega)
          simpa using this
      · rintro ⟨j, hj, hnj, hPj, hfirst⟩
        match j with
        | 0 =>
          simp only [List.getD_cons_zero] at hPj
          rw [hPj] at hP
          cases hP
        | j + 1 =>
          refine ⟨j, by simp at hj; omega, by omega, by simpa using hPj, ?_⟩
          intro m hm
          have := hfirst (m + 1) (by omega)
          simpa using this

/-- Claim C5 (amended): `detect_chapter_boundaries` performs first-match
detection per chapter — chapter `ci` is bound to `idx` exactly when `idx`
is the first page whose leading lines reach the 60% keyword-coverage
threshold for chapter `ci`'s title.  No monotonicity across chapters
follows from (or holds for) this rule. -/
theorem detect_chapter_boundaries_first_match (pages : List Page) (titles : List Str)
    (ci idx : Nat) :
    (detect_chapter_boundaries pages titles).lookup ci = some idx ↔
    (ci < titles.length ∧ idx < pages.length ∧
      pageMatchesChapter (titles.getD ci []) ((pages.getD idx ⟨0, []⟩).text) = true ∧
      ∀ j, j < idx →
        pageMatchesChapter (titles.getD ci []) ((pages.getD j ⟨0, []⟩).text) = false) := by
  unfold detect_chapter_boundaries
  rw [outerFold_lookup titles pages.enum [] ci]
  simp only [List.lookup_nil, Option.none_or]
  unfold List.enum
  rw [findSome_enumFrom_first
    (fun pg => (titles.enumFrom 0).any (fun t => t.1 == ci && pageMatchesChapter t.2 pg.text))
    pages 0 idx]
  constructor
  · rintro ⟨j, hj, hnj, hPj, hfirst⟩
    obtain ⟨jc, hjc, hjc0, hPc⟩ :=
      (enumFrom_any_iff
        (fun title => pageMatchesChapter title ((pages.getD j ⟨0, []⟩).text))
        ci titles 0).mp hPj
    have hjcci : jc = ci := by omega
    have hji : j = idx := by omega
    refine ⟨by omega, by omega, ?_, ?_⟩
    · rw [← hjcci, ← hji]
      exact hPc
    · intro m hm
      by_contra hcon
      rw [Bool.not_eq_false] at hcon
      have hany :=
        (enumFrom_any_iff
          (fun title => pageMatchesChapter title ((pages.getD m ⟨0, []⟩).text))
          ci titles 0).mpr ⟨ci, by omega, by omega, hcon⟩
      rw [hfirst m (by omega)] at hany
      exact Bool.false_ne_true hany
  · rintro ⟨hci, hidx, hPidx, hfirst⟩
    refine ⟨idx, hidx, by omega, ?_, ?_⟩
    · exact (enumFrom_any_iff
        (fun title => pageMatchesChapter title ((pages.getD idx ⟨0, []⟩).text))
        ci titles 0).mpr ⟨ci, hci, by omega, hPidx⟩
    · intro m hm
      by_contra hcon
      rw [Bool.not_eq_false] at hcon
      obtain ⟨jc, hjc, hjc0, hPc⟩ :=
        (enumFrom_any_iff
          (fun title => pageMatchesChapter title ((pages.getD m ⟨0, []⟩).text))
          ci titles 0).mp hcon
      have hjcci : jc = ci := by omega
      have hPcc : pageMatchesChapter (titles.getD ci [])
          ((pages.getD m ⟨0, []⟩).text) = true := by
        rw [← hjcci]
        exact hPc
      rw [hfirst m hm] at hPcc
      exact Bool.false_ne_true hPcc

end StructureBuilder

/-- Claim C6 counterexample: the page text `"clinical"` is shorter than 30
characters, so the source scores it 1.0 and the filter drops it, whereas
the claim's formula (line fractions, +0.3 penalty, clamped) gives 0 — below
the 0.4 threshold, so under the claim the page would be kept. -/
theorem noise_score_counterexample :
    StructureBuilder.calculate_noise_score "clinical".toList = 1 ∧
    SpecSide.claimNoiseScore "clinical".toList = 0 ∧
    ¬ (SpecSide.claimNoiseScore "clinical".toList > 2 / 5) ∧
    StructureBuilder.filter_noise_pages [⟨1, "clinical".toList⟩] = [] := by
  have hscore : StructureBuilder.calculate_noise_score "clinical".toList = 1 := by
    unfold StructureBuilder.calculate_noise_score
    rw [if_pos (Or.inr (by decide))]
  have hlines : ((PyStr.splitSep ['\n']
      (PyStr.strip (PyStr.lower "clinical".toList))).map PyStr.strip).filter
      (fun l => l ≠ []) = ["clinical".toList] := by decide
  have hn : (["clinical".toList] : List Str).countP
      (fun l => StructureBuilder.noisePatterns.any (fun p => p l)) = 0 := by decide
  have hc : (["clinical".toList] : List Str).countP
      (fun l => StructureBuilder.contentIndicators.any (fun p => p l)) = 1 := by decide
  have hclaim : SpecSide.claimNoiseScore "clinical".toList = 0 := by
    unfold SpecSide.claimNoiseScore
    simp only [hlines, hn, hc]
    rw [if_neg (by decide), if_pos (by decide)]
    simp only [List.length_cons, List.length_nil]
    norm_num
  refine ⟨hscore, hclaim, ?_, ?_⟩
  · rw [hclaim]
    norm_num
  · simp only [StructureBuilder.filter_noise_pages, StructureBuilder.is_noise_page,
      List.filter_cons, List.filter_nil, gt_iff_lt]
    rw [show (decide ((2 : ℚ) / 5 <
        StructureBuilder.calculate_noise_score "clinical".toList)) = true from
      decide_eq_true (by rw [hscore]; norm_num)]
    rfl

/-- Claim C6 (amended): the noise score of a page equals the number of
(line, noise-pattern) matching pairs over the non-blank line count, minus
0.5 times the (line, content-pattern) pair count over the line count, with
the +0.3 penalty added to the noise ratio when the lowered stripped text is
under 200 characters, clamped to [0, 1]; any page whose stripped text is
under 30 characters — in particular one with no non-blank lines — scores
1.0 outright; the score always lies in [0, 1]; and `filter_noise_pages`
keeps exactly the pages whose score is ≤ 0.4. -/
theorem noise_score_code_formula (text : Str) (pages : List StructureBuilder.Page) :
    ((PyStr.strip text).length < 30 → StructureBuilder.calculate_noise_score text = 1) ∧
    (0 ≤ StructureBuilder.calculate_noise_score text ∧
      StructureBuilder.calculate_noise_score text ≤ 1) ∧
    (¬ (PyStr.strip text).length < 30 → SpecSide.scoreLines text = [] →
      StructureBuilder.calculate_noise_score text = 1) ∧
    (¬ (PyStr.strip text).length < 30 → SpecSide.scoreLines text ≠ [] →
      StructureBuilder.calculate_noise_score text =
        max 0 (min 1
          ((if (PyStr.strip (PyStr.lower text)).length < 200 then
              (SpecSide.noisePairs text : ℚ) / ((SpecSide.scoreLines text).length : ℚ) + 3 / 10
            else (SpecSide.noisePairs text : ℚ) / ((SpecSide.scoreLines text).length : ℚ)) -
            (SpecSide.contentPairs text : ℚ) / ((SpecSide.scoreLines text).length : ℚ) *
              (1 / 2)))) ∧
    StructureBuilder.filter_noise_pages pages =
      pages.filter (fun p => decide (StructureBuilder.calculate_noise_score p.text ≤ 2 / 5)) := by
  refine ⟨?_, ?_, ?_, ?_, ?_⟩
  · intro h30
    unfold StructureBuilder.calculate_noise_score
    rw [if_pos (Or.inr h30)]
  · unfold StructureBuilder.calculate_noise_score
    dsimp only
    split
    · norm_num
    · split
      · norm_num
      · exact ⟨le_max_left 0 _, max_le (by norm_num) (min_le_left _ _)⟩
  · intro h30 hlines
    unfold StructureBuilder.calculate_noise_score
    rw [if_neg ?hg]
    case hg =>
      rintro (hnil | hlt)
      · subst hnil
        simp [PyStr.strip, PyStr.stripLeft, PyStr.stripRight] at h30
      · exact h30 hlt
    rw [if_pos ?hl]
    case hl => exact hlines
  · intro h30 hlines
    have htext : text ≠ [] := by
      intro hnil
      subst hnil
      simp [PyStr.strip, PyStr.stripLeft, PyStr.stripRight] at h30
    have hpos : 0 < (SpecSide.scoreLines text).length := List.length_pos.mpr hlines
    have hposR : 0 < (List.filter (fun l => decide (l ≠ []))
        (List.map PyStr.strip
          (PyStr.splitSep [Char.ofNat 10] (PyStr.strip (PyStr.lower text))))).length := hpos
    unfold StructureBuilder.calculate_noise_score
    rw [if_neg ?hg2]
    case hg2 =>
      rintro (hnil | hlt)
      · exact htext hnil
      · exact h30 hlt
    rw [if_neg ?hl2]
    case hl2 => exact hlines
    unfold SpecSide.noisePairs SpecSide.contentPairs SpecSide.scoreLines
    dsimp only
    by_cases h200 : List.length (PyStr.strip (PyStr.lower text)) < 200
    · rw [if_pos h200, if_pos h200, if_pos hposR, if_pos hposR]
    · rw [if_neg h200, if_neg h200, if_pos hposR, if_pos hposR]
  · unfold StructureBuilder.filter_noise_pages
    apply List.filter_congr
    intro p _
    unfold StructureBuilder.is_noise_page
    rw [← decide_not]
    congr 1
    simp [not_lt]

/-- Witness for C6 (amended) on a 43-character page: the pair-count formula
branch applies. -/
theorem noise_score_code_formula_witness :
    (¬ (PyStr.strip "the patient was treated in the clinic today".toList).length < 30) ∧
    (SpecSide.scoreLines "the patient was treated in the clinic today".toList ≠ []) ∧
    StructureBuilder.calculate_noise_score
        "the patient was treated in the clinic today".toList =
      max 0 (min 1
        ((if (PyStr.strip (PyStr.lower
              "the patient was treated in the clinic today".toList)).length < 200 then
            (SpecSide.noisePairs "the patient was treated in the clinic today".toList : ℚ) /
              ((SpecSide.scoreLines
                "the patient was treated in the clinic today".toList).length : ℚ) + 3 / 10
          else
            (SpecSide.noisePairs "the patient was treated in the clinic today".toList : ℚ) /
              ((SpecSide.scoreLines
                "the patient was treated in the clinic today".toList).length : ℚ)) -
          (SpecSide.contentPairs "the patient was treated in the clinic today".toList : ℚ) /
            ((SpecSide.scoreLines
              "the patient was treated in the clinic today".toList).length : ℚ) * (1 / 2))) :=
  ⟨by decide, by decide,
    (noise_score_code_formula "the patient was treated in the clinic today".toList []).2.2.2.1
      (by decide) (by decide)⟩

/-- Claim C2: evaluation at a failing input.  With sizes
`(chunk 1, overlap 0, min 1, max 1)`, the 16-character single-"sentence"
input is bisected once at the character midpoint and the two halves — each
estimating 2 tokens, above `max_chunk_size = 1` — are returned without the
re-check the spec describes ("until all pieces are within bound"); two
chunks are produced, so the sole-leftover-merge-remainder exception does
not apply. -/
theorem chunk_exceeds_max_at_unsplittable_sentence :
    Chunker.chunk_text ⟨1, 0, 1, 1⟩ (List.replicate 16 'a') =
      [List.replicate 8 'a', List.replicate 8 'a'] ∧
    Chunker.estimate_tokens (List.replicate 8 'a') = 2 ∧
    (⟨1, 0, 1, 1⟩ : Chunker.ChunkerConfig).max_chunk_size = 1 := by
  refine ⟨by decide, by decide, by decide⟩

set_option maxRecDepth 10000 in
set_option maxHeartbeats 1000000 in
/-- Claim C7 counterexample: an item containing a 2-row table followed by
600 characters of text yields a table record (`has_overlap = false`) and
then a first text record, also with `has_overlap = false` — two records of
the same chapter/section with `has_overlap = false`, refuting "false
exactly for the first chunk". -/
theorem has_overlap_counterexample :
    Chunker.chunk_structure_records
        [⟨"1|2|3\n4|5|6\n\n".toList ++ List.replicate 600 'a'⟩] =
      [⟨"1|2|3\n4|5|6".toList, 0, Chunker.ChunkType.table, false, none⟩,
       ⟨List.replicate 600 'a', 1, Chunker.ChunkType.text, false, none⟩] := by
  decide

theorem enumFrom_overlap_flags :
    ∀ (l : List Str) (n : Nat), 0 < n →
    ((l.enumFrom n).map (fun p => decide (p.1 > 0))) = List.replicate l.length true
  | [], n, hn => by simp
  | x :: xs, n, hn => by
    rw [List.enumFrom_cons, List.map_cons, enumFrom_overlap_flags xs (n + 1) (by omega)]
    simp only [List.length_cons, List.replicate_succ]
    congr 1
    exact decide_eq_true hn

theorem enum_overlap_flags (l : List Str) :
    (l.enum.map (fun p => decide (p.1 > 0))) =
      (match l with
       | [] => []
       | _ :: rest => false :: List.replicate rest.length true) := by
  match l with
  | [] => simp
  | x :: xs =>
    rw [List.enum_cons, List.map_cons, enumFrom_overlap_flags xs 1 (by omega)]
    rfl

/-- Claim C7 (amended): within each chapter/section item, `has_overlap` is
false for every table-typed record and for the first text-typed record,
and true exactly for the text-typed records after the first. -/
theorem item_records_overlap_flags (item : Chunker.Item) (g : Nat)
    (h : ¬(item.full_text = [] ∨ item.full_text.length < 500)) :
    (∀ r ∈ Chunker.item_records item g,
      r.chunk_type = Chunker.ChunkType.table → r.has_overlap = false) ∧
    (((Chunker.item_records item g).filter
        (fun r => r.chunk_type == Chunker.ChunkType.text)).map
          (fun r => r.has_overlap)) =
      (match Chunker.chunk_text Chunker.defaultConfig
          (Chunker.detect_tables item.full_text).2 with
       | [] => []
       | _ :: rest => false :: List.replicate rest.length true) := by
  unfold Chunker.item_records
  rw [if_neg h]
  dsimp only
  constructor
  · intro r hr htype
    rcases List.mem_append.mp hr with hmem | hmem
    · obtain ⟨p, hp, rfl⟩ := List.mem_map.mp hmem
      rfl
    · obtain ⟨p, hp, rfl⟩ := List.mem_map.mp hmem
      exact absurd htype (by simp)
  · rw [List.filter_append]
    have h1 : ((Chunker.detect_tables item.full_text).1.enum.map
        (fun p => ({ text := p.2.content, chunk_index := g + p.1, chunk_type := Chunker.ChunkType.table, has_overlap := false, table_reference := p.2.reference } : Chunker.ChunkRec))).filter
          (fun r => r.chunk_type == Chunker.ChunkType.text) = [] := by
      rw [List.filter_eq_nil_iff]
      intro r hr
      obtain ⟨p, hp, rfl⟩ := List.mem_map.mp hr
      simp
    have h2 : ((Chunker.chunk_text Chunker.defaultConfig
        (Chunker.detect_tables item.full_text).2).enum.map
        (fun p => ({ text := p.2, chunk_index := g + (Chunker.detect_tables item.full_text).1.length + p.1, chunk_type := Chunker.ChunkType.text, has_overlap := decide (p.1 > 0), table_reference := none } : Chunker.ChunkRec))).filter
          (fun r => r.chunk_type == Chunker.ChunkType.text) =
        ((Chunker.chunk_text Chunker.defaultConfig
          (Chunker.detect_tables item.full_text).2).enum.map
          (fun p => ({ text := p.2, chunk_index := g + (Chunker.detect_tables item.full_text).1.length + p.1, chunk_type := Chunker.ChunkType.text, has_overlap := decide (p.1 > 0), table_reference := none } : Chunker.ChunkRec))) := by
      rw [List.filter_eq_self]
      intro r hr
      obtain ⟨p, hp, rfl⟩ := List.mem_map.mp hr
      simp
    rw [h1, h2, List.nil_append, List.map_map]
    have h3 : ((fun r => Chunker.ChunkRec.has_overlap r) ∘
        (fun (p : Nat × Str) => ({ text := p.2, chunk_index := g + (Chunker.detect_tables item.full_text).1.length + p.1, chunk_type := Chunker.ChunkType.text, has_overlap := decide (p.1 > 0), table_reference := none } : Chunker.ChunkRec))) =
        (fun (p : Nat × Str) => decide (p.1 > 0)) := rfl
    rw [h3, enum_overlap_flags]

set_option maxRecDepth 10000 in
set_option maxHeartbeats 1000000 in
/-- Witness for C7 (amended) at the counterexample item. -/
theorem item_records_overlap_flags_witness :
    (¬ (("1|2|3\n4|5|6\n\n".toList ++ List.replicate 600 'a' : Str) = [] ∨
      ("1|2|3\n4|5|6\n\n".toList ++ List.replicate 600 'a' : Str).length < 500)) ∧
    (∀ r ∈ Chunker.item_records ⟨"1|2|3\n4|5|6\n\n".toList ++ List.replicate 600 'a'⟩ 0,
      r.chunk_type = Chunker.ChunkType.table → r.has_overlap = false) :=
  ⟨by decide,
    (item_records_overlap_flags ⟨"1|2|3\n4|5|6\n\n".toList ++ List.replicate 600 'a'⟩ 0
      (by decide)).1⟩

/-! ### Idempotence of table extraction (C8) -/

theorem splitSepCore_no_sep : ∀ (s : Str) (acc : Str) (fuel : Nat),
    s.length + 1 ≤ fuel → '\n' ∉ s →
    PyStr.splitSepCore '\n' [] fuel s acc = [acc.reverse ++ s]
  | [], acc, fuel, hf, _ => by
    match fuel, hf with
    | f + 1, _ => simp [PyStr.splitSepCore]
  | c :: rest, acc, fuel, hf, hn => by
    match fuel, hf with
    | f + 1, hf =>
      have hc : ¬ (c = '\n') := fun h => hn (h ▸ List.mem_cons_self c rest)
      have hpre : (['\n'] : Str).isPrefixOf (c :: rest) = false := by
        simp [List.isPrefixOf]
        exact fun h => absurd h.symm hc
      rw [PyStr.splitSepCore, if_neg (by rw [hpre]; exact Bool.false_ne_true)]
      rw [splitSepCore_no_sep rest (c :: acc) f (by simpa using hf)
          (fun h => hn (List.mem_cons_of_mem c h))]
      simp

theorem splitSepCore_sep_split : ∀ (s : Str) (g : Nat) (t : Str) (acc : Str),
    '\n' ∉ s →
    PyStr.splitSepCore '\n' [] (s.length + 1 + g) (s ++ '\n' :: t) acc =
      (acc.reverse ++ s) :: PyStr.splitSepCore '\n' [] g t []
  | [], g, t, acc, _ => by
    have hpre : (['\n'] : Str).isPrefixOf ('\n' :: t) = true := by
      simp [List.isPrefixOf]
    rw [show ([] : Str).length + 1 + g = g + 1 by simp only [List.length_nil]; omega]
    rw [show (([] : Str) ++ '\n' :: t) = '\n' :: t from rfl]
    rw [PyStr.splitSepCore, if_pos hpre]
    simp
  | c :: rest, g, t, acc, hn => by
    have hc : ¬ (c = '\n') := fun h => hn (h ▸ List.mem_cons_self c rest)
    have hpre : (['\n'] : Str).isPrefixOf (c :: (rest ++ '\n' :: t)) = false := by
      simp [List.isPrefixOf]
      exact fun h => absurd h.symm hc
    rw [show (c :: rest).length + 1 + g = (rest.length + 1 + g) + 1 by simp; omega]
    rw [show ((c :: rest) ++ '\n' :: t) = c :: (rest ++ '\n' :: t) from rfl]
    rw [PyStr.splitSepCore, if_neg (by rw [hpre]; exact Bool.false_ne_true)]
    rw [splitSepCore_sep_split rest g t (c :: acc)
        (fun h => hn (List.mem_cons_of_mem c h))]
    simp

theorem splitSep_joinSep_nl : ∀ (L : List Str),
    L ≠ [] → (∀ l ∈ L, '\n' ∉ l) →
    PyStr.splitSep ['\n'] (PyStr.joinSep ['\n'] L) = L
  | [], hne, _ => absurd rfl hne
  | [l], _, hmem => by
    rw [PyStr.joinSep, PyStr.splitSep]
    rw [splitSepCore_no_sep l [] (l.length + 1) (by omega)
        (hmem l (List.mem_cons_self l []))]
    simp
  | l :: l2 :: rest, _, hmem => by
    rw [PyStr.joinSep, PyStr.splitSep]
    rw [show (l ++ ['\n'] ++ PyStr.joinSep ['\n'] (l2 :: rest)) =
        (l ++ '\n' :: PyStr.joinSep ['\n'] (l2 :: rest)) by simp]
    rw [show (l ++ '\n' :: PyStr.joinSep ['\n'] (l2 :: rest)).length + 1 =
        l.length + 1 + ((PyStr.joinSep ['\n'] (l2 :: rest)).length + 1) by
      simp; omega]
    rw [splitSepCore_sep_split l ((PyStr.joinSep ['\n'] (l2 :: rest)).length + 1)
        (PyStr.joinSep ['\n'] (l2 :: rest)) []
        (hmem l (List.mem_cons_self l _))]
    have hIH := splitSep_joinSep_nl (l2 :: rest) (by simp)
      (fun x hx => hmem x (List.mem_cons_of_mem l hx))
    rw [PyStr.splitSep] at hIH
    rw [hIH]
    simp

theorem splitSepCore_nl_free : ∀ (s : Str) (acc : Str) (fuel : Nat),
    s.length + 1 ≤ fuel → '\n' ∉ acc →
    ∀ l ∈ PyStr.splitSepCore '\n' [] fuel s acc, '\n' ∉ l
  | [], acc, fuel, hf, hacc => by
    match fuel, hf with
    | f + 1, _ =>
      intro l hl
      simp only [PyStr.splitSepCore, List.mem_singleton] at hl
      subst hl
      simpa using hacc
  | c :: rest, acc, fuel, hf, hacc => by
    match fuel, hf with
    | f + 1, hf =>
      by_cases hc : c = '\n'
      · subst hc
        have hpre : (['\n'] : Str).isPrefixOf ('\n' :: rest) = true := by
          simp [List.isPrefixOf]
        rw [PyStr.splitSepCore, if_pos hpre]
        simp only [List.length_nil, List.drop_zero]
        intro l hl
        rcases List.mem_cons.mp hl with rfl | hl2
        · simpa using hacc
        · exact splitSepCore_nl_free rest [] f (by simpa using hf) (by simp) l hl2
      · have hpre : ¬ ((['\n'] : Str).isPrefixOf (c :: rest) = true) := by
          simp [List.isPrefixOf]
          exact fun h => absurd h.symm hc
        rw [PyStr.splitSepCore, if_neg hpre]
        exact splitSepCore_nl_free rest (c :: acc) f (by simpa using hf)
          (by simp only [List.mem_cons, not_or]
              exact ⟨fun h => hc h.symm, hacc⟩)

theorem splitSep_nl_free (s : Str) : ∀ l ∈ PyStr.splitSep ['\n'] s, '\n' ∉ l := by
  intro l hl
  rw [PyStr.splitSep] at hl
  exact splitSepCore_nl_free s [] (s.length + 1) (le_refl _) (by simp) l hl

theorem detectTablesAux_nil_snd (inT : Bool) (tbl : List Str) (ref : Option Str) :
    (Chunker.detectTablesAux [] inT tbl ref).2 = [] := by
  simp only [Chunker.detectTablesAux]
  split <;> rfl

theorem detectTablesAux_step_ref (line : Str) (rest : List Str) (tbl : List Str)
    (ref : Option Str)
    (h1 : ((Chunker.findTableRef (PyStr.strip line)).isSome && !false) = true) :
    Chunker.detectTablesAux (line :: rest) false tbl ref =
      Chunker.detectTablesAux rest false tbl (Chunker.findTableRef (PyStr.strip line)) := by
  simp only [Chunker.detectTablesAux]
  rw [if_pos h1]

theorem detectTablesAux_step_tline_out (line : Str) (rest : List Str) (tbl : List Str)
    (ref : Option Str)
    (h1 : ¬ (((Chunker.findTableRef (PyStr.strip line)).isSome && !false) = true))
    (h2 : Chunker.isTableLine line = true) :
    Chunker.detectTablesAux (line :: rest) false tbl ref =
      Chunker.detectTablesAux rest true [line] ref := by
  simp only [Chunker.detectTablesAux]
  rw [if_neg h1, if_pos h2, if_neg Bool.false_ne_true]

theorem detectTablesAux_step_tline_in (line : Str) (rest : List Str) (tbl : List Str)
    (ref : Option Str) (h2 : Chunker.isTableLine line = true) :
    Chunker.detectTablesAux (line :: rest) true tbl ref =
      Chunker.detectTablesAux rest true (tbl ++ [line]) ref := by
  simp only [Chunker.detectTablesAux]
  rw [if_neg (by simp), if_pos h2, if_pos trivial]

theorem detectTablesAux_step_plain (line : Str) (rest : List Str) (tbl : List Str)
    (ref : Option Str)
    (h1 : ¬ (((Chunker.findTableRef (PyStr.strip line)).isSome && !false) = true))
    (h2 : ¬ (Chunker.isTableLine line = true)) :
    Chunker.detectTablesAux (line :: rest) false tbl ref =
      ((Chunker.detectTablesAux rest false [] ref).1,
       line :: (Chunker.detectTablesAux rest false [] ref).2) := by
  simp only [Chunker.detectTablesAux]
  rw [if_neg h1, if_neg h2, if_neg Bool.false_ne_true]

theorem detectTablesAux_step_close_big (line : Str) (rest : List Str) (tbl : List Str)
    (ref : Option Str)
    (h2 : ¬ (Chunker.isTableLine line = true)) (h3 : tbl.length ≥ 2) :
    Chunker.detectTablesAux (line :: rest) true tbl ref =
      (⟨PyStr.joinSep ['\n'] tbl, ref, tbl.length⟩ ::
        (Chunker.detectTablesAux rest false [] none).1,
       line :: (Chunker.detectTablesAux rest false [] none).2) := by
  simp only [Chunker.detectTablesAux]
  rw [if_neg (by simp), if_neg h2, if_pos trivial, if_pos h3]

theorem detectTablesAux_step_close_small (line : Str) (rest : List Str) (tbl : List Str)
    (ref : Option Str)
    (h2 : ¬ (Chunker.isTableLine line = true)) (h3 : ¬ (tbl.length ≥ 2)) :
    Chunker.detectTablesAux (line :: rest) true tbl ref =
      ((Chunker.detectTablesAux rest false [] none).1,
       tbl ++ line :: (Chunker.detectTablesAux rest false [] none).2) := by
  simp only [Chunker.detectTablesAux]
  rw [if_neg (by simp), if_neg h2, if_pos trivial, if_neg h3]

/-- No two adjacent lines both look like table rows. -/
def noAdjTables : List Str → Bool
  | [] => true
  | [_] => true
  | a :: b :: rest =>
    (!(Chunker.isTableLine a && Chunker.isTableLine b)) && noAdjTables (b :: rest)

theorem noAdjTables_tail (a : Str) (l : List Str) (h : noAdjTables (a :: l) = true) :
    noAdjTables l = true := by
  cases l with
  | nil => rfl
  | cons b r =>
    simp only [noAdjTables, Bool.and_eq_true] at h
    exact h.2

theorem noAdjTables_pair (a b : Str) (l : List Str)
    (h : noAdjTables (a :: b :: l) = true) (ha : Chunker.isTableLine a = true) :
    Chunker.isTableLine b = false := by
  simp only [noAdjTables, Bool.and_eq_true] at h
  have h1 := h.1
  rw [ha, Bool.true_and] at h1
  simpa using h1

theorem noAdjTables_cons (a : Str) (l : List Str) (ha : Chunker.isTableLine a = false)
    (hl : noAdjTables l = true) : noAdjTables (a :: l) = true := by
  cases l with
  | nil => rfl
  | cons b r =>
    simp only [noAdjTables, Bool.and_eq_true]
    exact ⟨by simp [ha], hl⟩

theorem noAdjTables_cons2 (a b : Str) (l : List Str) (hb : Chunker.isTableLine b = false)
    (hl : noAdjTables (b :: l) = true) : noAdjTables (a :: b :: l) = true := by
  simp only [noAdjTables, Bool.and_eq_true]
  exact ⟨by simp [hb], hl⟩

theorem detectTablesAux_no_nl : ∀ (lines : List Str) (inT : Bool) (tbl : List Str)
    (ref : Option Str),
    (∀ l ∈ lines, '\n' ∉ l) → (∀ l ∈ tbl, '\n' ∉ l) →
    ∀ l ∈ (Chunker.detectTablesAux lines inT tbl ref).2, '\n' ∉ l
  | [], inT, tbl, ref => by
    intro _ _ l hl
    rw [detectTablesAux_nil_snd] at hl
    exact absurd hl (List.not_mem_nil l)
  | line :: rest, inT, tbl, ref => by
    intro hlines htbl
    have hline : '\n' ∉ line := hlines line (List.mem_cons_self _ _)
    have hrest : ∀ l ∈ rest, '\n' ∉ l := fun x hx => hlines x (List.mem_cons_of_mem _ hx)
    cases inT with
    | false =>
      by_cases h1 : (Chunker.findTableRef (PyStr.strip line)).isSome = true
      · rw [detectTablesAux_step_ref line rest tbl ref (by simp [h1])]
        exact detectTablesAux_no_nl rest false tbl _ hrest htbl
      · by_cases h2 : Chunker.isTableLine line = true
        · rw [detectTablesAux_step_tline_out line rest tbl ref (by simpa using h1) h2]
          exact detectTablesAux_no_nl rest true [line] ref hrest
            (fun x hx => by rw [List.mem_singleton.mp hx]; exact hline)
        · rw [detectTablesAux_step_plain line rest tbl ref (by simpa using h1) h2]
          intro l hl
          rcases List.mem_cons.mp hl with rfl | hl2
          · exact hline
          · exact detectTablesAux_no_nl rest false [] ref hrest
              (fun x hx => absurd hx (List.not_mem_nil x)) l hl2
    | true =>
      by_cases h2 : Chunker.isTableLine line = true
      · rw [detectTablesAux_step_tline_in line rest tbl ref h2]
        refine detectTablesAux_no_nl rest true (tbl ++ [line]) ref hrest ?_
        intro x hx
        rcases List.mem_append.mp hx with hx1 | hx2
        · exact htbl x hx1
        · rw [List.mem_singleton.mp hx2]; exact hline
      · by_cases h3 : tbl.length ≥ 2
        · rw [detectTablesAux_step_close_big line rest tbl ref h2 h3]
          intro l hl
          rcases List.mem_cons.mp hl with rfl | hl2
          · exact hline
          · exact detectTablesAux_no_nl rest false [] none hrest
              (fun x hx => absurd hx (List.not_mem_nil x)) l hl2
        · rw [detectTablesAux_step_close_small line rest tbl ref h2 h3]
          intro l hl
          rcases List.mem_append.mp hl with hl1 | hl2
          · exact htbl l hl1
          · rcases List.mem_cons.mp hl2 with rfl | hl3
            · exact hline
            · exact detectTablesAux_no_nl rest false [] none hrest
                (fun x hx => absurd hx (List.not_mem_nil x)) l hl3

theorem detectTablesAux_noAdj : ∀ (lines : List Str) (inT : Bool) (tbl : List Str)
    (ref : Option Str),
    noAdjTables (Chunker.detectTablesAux lines inT tbl ref).2 = true
  | [], inT, tbl, ref => by rw [detectTablesAux_nil_snd]; rfl
  | line :: rest, inT, tbl, ref => by
    cases inT with
    | false =>
      by_cases h1 : (Chunker.findTableRef (PyStr.strip line)).isSome = true
      · rw [detectTablesAux_step_ref line rest tbl ref (by simp [h1])]
        exact detectTablesAux_noAdj rest false tbl _
      · by_cases h2 : Chunker.isTableLine line = true
        · rw [detectTablesAux_step_tline_out line rest tbl ref (by simpa using h1) h2]
          exact detectTablesAux_noAdj rest true [line] ref
        · rw [detectTablesAux_step_plain line rest tbl ref (by simpa using h1) h2]
          exact noAdjTables_cons line _ (by simpa using h2)
            (detectTablesAux_noAdj rest false [] ref)
    | true =>
      by_cases h2 : Chunker.isTableLine line = true
      · rw [detectTablesAux_step_tline_in line rest tbl ref h2]
        exact detectTablesAux_noAdj rest true (tbl ++ [line]) ref
      · by_cases h3 : tbl.length ≥ 2
        · rw [detectTablesAux_step_close_big line rest tbl ref h2 h3]
          exact noAdjTables_cons line _ (by simpa using h2)
            (detectTablesAux_noAdj rest false [] none)
        · rw [detectTablesAux_step_close_small line rest tbl ref h2 h3]
          cases tbl with
          | nil =>
            simp only [List.nil_append]
            exact noAdjTables_cons line _ (by simpa using h2)
              (detectTablesAux_noAdj rest false [] none)
          | cons t ts =>
            cases ts with
            | nil =>
              simp only [List.cons_append, List.nil_append]
              exact noAdjTables_cons2 t line _ (by simpa using h2)
                (noAdjTables_cons line _ (by simpa using h2)
                  (detectTablesAux_noAdj rest false [] none))
            | cons u us =>
              exact absurd (by simp only [List.length_cons]; omega) h3

theorem detectTablesAux_noTables : ∀ (lines : List Str) (inT : Bool) (tbl : List Str)
    (ref : Option Str),
    noAdjTables lines = true →
    (inT = true → tbl.length ≤ 1 ∧ ∀ a r2, lines = a :: r2 → Chunker.isTableLine a = false) →
    (Chunker.detectTablesAux lines inT tbl ref).1 = []
  | [], inT, tbl, ref => fun _ hinv => by
    cases inT with
    | false => rfl
    | true =>
      have hlen := (hinv rfl).1
      simp only [Chunker.detectTablesAux]
      rw [if_neg (by simp only [Bool.true_and, decide_eq_true_eq]; omega)]
  | line :: rest, inT, tbl, ref => fun hadj hinv => by
    have htail : noAdjTables rest = true := noAdjTables_tail line rest hadj
    cases inT with
    | false =>
      by_cases h1 : (Chunker.findTableRef (PyStr.strip line)).isSome = true
      · rw [detectTablesAux_step_ref line rest tbl ref (by simp [h1])]
        exact detectTablesAux_noTables rest false tbl _ htail
          (fun h => absurd h Bool.false_ne_true)
      · by_cases h2 : Chunker.isTableLine line = true
        · rw [detectTablesAux_step_tline_out line rest tbl ref (by simpa using h1) h2]
          refine detectTablesAux_noTables rest true [line] ref htail ?_
          intro _
          refine ⟨by simp, ?_⟩
          intro a r2 hr
          subst hr
          exact noAdjTables_pair line a r2 hadj h2
        · rw [detectTablesAux_step_plain line rest tbl ref (by simpa using h1) h2]
          exact detectTablesAux_noTables rest false [] ref htail
            (fun h => absurd h Bool.false_ne_true)
    | true =>
      have hinv2 := hinv rfl
      have hhead : Chunker.isTableLine line = false := hinv2.2 line rest rfl
      have hne2 : ¬ (Chunker.isTableLine line = true) := by simp [hhead]
      have h3 : ¬ (tbl.length ≥ 2) := by
        have := hinv2.1
        omega
      rw [detectTablesAux_step_close_small line rest tbl ref hne2 h3]
      exact detectTablesAux_noTables rest false [] none htail
        (fun h => absurd h Bool.false_ne_true)

theorem second_pass_empty (L : List Str) (hnl : ∀ l ∈ L, '\n' ∉ l)
    (hadj : noAdjTables L = true) :
    (Chunker.detect_tables (PyStr.joinSep ['\n'] L)).1 = [] := by
  cases L with
  | nil => decide
  | cons l rest =>
    rw [Chunker.detect_tables]
    dsimp only
    rw [splitSep_joinSep_nl (l :: rest) (by simp) hnl]
    exact detectTablesAux_noTables (l :: rest) false [] none hadj
      (fun h => absurd h Bool.false_ne_true)

/-- Claim C8: table extraction is idempotent — running `detect_tables` on
the cleaned text returned by a first run of `detect_tables` yields an empty
table list. -/
theorem detect_tables_idempotent (text : Str) :
    (Chunker.detect_tables (Chunker.detect_tables text).2).1 = [] := by
  have h2 : (Chunker.detect_tables text).2 =
      PyStr.joinSep ['\n']
        (Chunker.detectTablesAux (PyStr.splitSep ['\n'] text) false [] none).2 := rfl
  rw [h2]
  exact second_pass_empty _
    (detectTablesAux_no_nl _ false [] none (splitSep_nl_free text)
      (fun x hx => absurd hx (List.not_mem_nil x)))
    (detectTablesAux_noAdj _ false [] none)

/-! ### Content preservation of `chunk_text` (C1)

The non-whitespace characters of the cleaned text are tracked as a
multiset through every stage of the chunking pipeline. -/

/-- The multiset of non-whitespace characters of a string. -/
def nws (s : Str) : Multiset Char :=
  ((s.filter (fun c => !PyStr.isWs c)) : Multiset Char)

theorem nws_append (x y : Str) : nws (x ++ y) = nws x + nws y := by
  simp [nws, List.filter_append]

theorem nws_cons_ws (c : Char) (s : Str) (h : PyStr.isWs c = true) :
    nws (c :: s) = nws s := by
  simp [nws, List.filter_cons, h]

theorem nws_reverse (s : Str) : nws s.reverse = nws s := by
  simp [nws, List.filter_reverse]

theorem nws_dropWhile_ws (s : Str) : nws (s.dropWhile PyStr.isWs) = nws s := by
  induction s with
  | nil => rfl
  | cons c rest ih =>
    simp only [List.dropWhile_cons]
    by_cases h : PyStr.isWs c = true
    · rw [if_pos h, ih, nws_cons_ws c rest h]
    · rw [if_neg h]

theorem nws_stripLeft (s : Str) : nws (PyStr.stripLeft s) = nws s :=
  nws_dropWhile_ws s

theorem nws_stripRight (s : Str) : nws (PyStr.stripRight s) = nws s := by
  rw [PyStr.stripRight, nws_reverse, nws_dropWhile_ws, nws_reverse]

theorem nws_strip (s : Str) : nws (PyStr.strip s) = nws s := by
  rw [PyStr.strip, nws_stripRight, nws_stripLeft]

theorem nws_zero_of_strip_nil (s : Str) (h : PyStr.strip s = []) : nws s = 0 := by
  rw [← nws_strip s, h]; rfl

theorem all_ws_of_nws_zero (s : Str) (h : nws s = 0) :
    ∀ c ∈ s, PyStr.isWs c = true := by
  intro c hc
  have hl : s.filter (fun c => !PyStr.isWs c) = [] := by
    have := h
    simpa [nws] using this
  have := List.filter_eq_nil_iff.mp hl c hc
  simpa using this

theorem nws_zero_of_all_ws (s : Str) (h : ∀ c ∈ s, PyStr.isWs c = true) :
    nws s = 0 := by
  have hl : s.filter (fun c => !PyStr.isWs c) = [] := by
    rw [List.filter_eq_nil_iff]
    intro c hc
    simp [h c hc]
  simp [nws, hl]

theorem nws_joinSep_ws (sep : Str) (hsep : ∀ c ∈ sep, PyStr.isWs c = true) :
    ∀ L : List Str, nws (PyStr.joinSep sep L) = (L.map nws).sum
  | [] => rfl
  | [p] => by simp [PyStr.joinSep]
  | p :: q :: rest => by
    rw [PyStr.joinSep, nws_append, nws_append, nws_joinSep_ws sep hsep (q :: rest),
      nws_zero_of_all_ws sep hsep]
    simp

theorem sum_map_filter_nws {α : Type} (f : α → Multiset Char) (q : α → Bool) :
    ∀ l : List α, (∀ x ∈ l, q x = false → f x = 0) →
    ((l.filter q).map f).sum = (l.map f).sum
  | [], _ => rfl
  | a :: rest, h => by
    have hrest := sum_map_filter_nws f q rest
      (fun x hx => h x (List.mem_cons_of_mem a hx))
    rw [List.filter_cons]
    by_cases hq : q a = true
    · rw [if_pos hq]
      simp [hrest]
    · rw [if_neg hq]
      have hz : f a = 0 := h a (List.mem_cons_self a rest) (by simpa using hq)
      simp [hrest, hz]

theorem prefixOf_extend (pat z y : Str) (h : pat.isPrefixOf z = true) :
    pat.isPrefixOf (z ++ y) = true :=
  List.isPrefixOf_iff_prefix.mpr
    ((List.isPrefixOf_iff_prefix.mp h).trans (List.prefix_append z y))

theorem csub_right (pat x y : Str) (h : PyStr.containsSub pat y = true) :
    PyStr.containsSub pat (x ++ y) = true := by
  induction x with
  | nil => simpa using h
  | cons a x2 ih =>
    rw [List.cons_append, PyStr.containsSub, ih]
    simp

theorem csub_left (pat x y : Str) (h : PyStr.containsSub pat x = true) :
    PyStr.containsSub pat (x ++ y) = true := by
  induction x with
  | nil =>
    rw [PyStr.containsSub] at h
    have : pat = [] := by simpa [List.isEmpty_iff] using h
    subst this
    cases y with
    | nil => rfl
    | cons b ys => rw [List.nil_append, PyStr.containsSub]; simp [List.isPrefixOf]
  | cons a x2 ih =>
    rw [PyStr.containsSub] at h
    rw [List.cons_append, PyStr.containsSub]
    rcases (Bool.or_eq_true _ _).mp h with hp | hc
    · have := prefixOf_extend pat (a :: x2) y hp
      rw [List.cons_append] at this
      rw [this]
      simp
    · rw [ih hc]
      simp

theorem csub_tail (pat : Str) (c : Char) (s : Str)
    (h : PyStr.containsSub pat (c :: s) = false) :
    PyStr.containsSub pat s = false := by
  rw [PyStr.containsSub] at h
  exact (Bool.or_eq_false_iff.mp h).2

theorem csub_head (pat : Str) (c : Char) (s : Str)
    (h : PyStr.containsSub pat (c :: s) = false) :
    pat.isPrefixOf (c :: s) = false := by
  rw [PyStr.containsSub] at h
  exact (Bool.or_eq_false_iff.mp h).1

theorem csub_within (pat x s : Str) (hx : x <:+: s)
    (h : PyStr.containsSub pat s = false) :
    PyStr.containsSub pat x = false := by
  cases hcx : PyStr.containsSub pat x with
  | false => rfl
  | true =>
    obtain ⟨u, v, huv⟩ := hx
    have h1 : PyStr.containsSub pat (x ++ v) = true := csub_left pat x v hcx
    have h2 : PyStr.containsSub pat (u ++ (x ++ v)) = true := csub_right pat u _ h1
    rw [← List.append_assoc, huv] at h2
    rw [h2] at h
    exact absurd h (by simp)

theorem straddle (pat : Str) : ∀ (u : Str) (d : Char) (y : Str),
    pat.isPrefixOf (u ++ d :: y) = true → pat.isPrefixOf u = true ∨ d ∈ pat := by
  induction pat with
  | nil => intro u d y _; left; simp [List.isPrefixOf]
  | cons p ps ih =>
    intro u d y h
    cases u with
    | nil =>
      right
      rw [List.nil_append] at h
      have : p = d := by
        simp [List.isPrefixOf] at h
        exact h.1
      rw [this]
      exact List.mem_cons_self d ps
    | cons a u2 =>
      rw [List.cons_append] at h
      simp only [List.isPrefixOf, Bool.and_eq_true] at h
      rcases ih u2 d y h.2 with hl | hr
      · left
        simp only [List.isPrefixOf, Bool.and_eq_true]
        exact ⟨h.1, hl⟩
      · right
        exact List.mem_cons_of_mem p hr

theorem csub_append_mid (pat x : Str) (d : Char) (y : Str)
    (hd : d ∉ pat)
    (hx : PyStr.containsSub pat x = false)
    (hy : PyStr.containsSub pat y = false) :
    PyStr.containsSub pat (x ++ d :: y) = false := by
  induction x with
  | nil =>
    rw [List.nil_append, PyStr.containsSub]
    have hp : pat.isPrefixOf (d :: y) = false := by
      cases hpp : pat.isPrefixOf (d :: y) with
      | false => rfl
      | true =>
        rcases straddle pat [] d y (by simpa using hpp) with hl | hr
        · have : pat = [] := by
            cases pat with
            | nil => rfl
            | cons q qs => simp [List.isPrefixOf] at hl
          subst this
          cases y with
          | nil => simp [PyStr.containsSub] at hy
          | cons b ys => simp [PyStr.containsSub, List.isPrefixOf] at hy
        · exact absurd hr hd
    rw [hp, hy]
    rfl
  | cons a x2 ih =>
    have hx2 : PyStr.containsSub pat x2 = false := csub_tail pat a x2 hx
    rw [List.cons_append, PyStr.containsSub]
    have hp : pat.isPrefixOf (a :: (x2 ++ d :: y)) = false := by
      cases hpp : pat.isPrefixOf (a :: (x2 ++ d :: y)) with
      | false => rfl
      | true =>
        have hpp2 : pat.isPrefixOf ((a :: x2) ++ d :: y) = true := by
          rw [List.cons_append]; exact hpp
        rcases straddle pat (a :: x2) d y hpp2 with hl | hr
        · rw [csub_head pat a x2 hx] at hl
          exact absurd hl (by simp)
        · exact absurd hr hd
    rw [hp, ih hx2]
    rfl

theorem stripLeft_suffix (s : Str) : PyStr.stripLeft s <:+ s :=
  List.dropWhile_suffix PyStr.isWs

theorem stripRight_prefix_self (s : Str) : PyStr.stripRight s <+: s := by
  have h1 : s.reverse.dropWhile PyStr.isWs <:+ s.reverse :=
    List.dropWhile_suffix PyStr.isWs
  have h2 := List.reverse_prefix.mpr h1
  rwa [List.reverse_reverse] at h2

theorem strip_infix_self (s : Str) : PyStr.strip s <:+: s := by
  rw [PyStr.strip]
  exact ((stripRight_prefix_self (PyStr.stripLeft s)).isInfix).trans
    ((stripLeft_suffix s).isInfix)

theorem joinSep_mem_within (sep : Str) :
    ∀ (L : List Str) (p : Str), p ∈ L → p <:+: PyStr.joinSep sep L
  | [], p, hp => absurd hp (List.not_mem_nil p)
  | [q], p, hp => by
    rw [List.mem_singleton.mp hp]
    exact List.infix_rfl
  | q :: r :: rest, p, hp => by
    rw [PyStr.joinSep]
    rcases List.mem_cons.mp hp with rfl | hp2
    · rw [List.append_assoc]
      exact (List.prefix_append p _).isInfix
    · have := joinSep_mem_within sep (r :: rest) p hp2
      exact this.trans (List.suffix_append (q ++ sep) _).isInfix

theorem restoreDotsCore_fuel : ∀ (fuel : Nat) (s : Str), s.length + 1 ≤ fuel →
    Chunker.restoreDotsCore fuel s = Chunker.restoreDots s
  | 0, _, h => absurd h (by omega)
  | _ + 1, [], _ => by rw [Chunker.restoreDotsCore]; rfl
  | f + 1, c :: rest, h => by
    have hlen : rest.length + 1 ≤ f := by
      simp only [List.length_cons] at h
      omega
    have hdlen : (rest.drop 4).length + 1 ≤ f := by
      simp only [List.length_drop]
      omega
    rw [Chunker.restoreDotsCore]
    rw [Chunker.restoreDots, show (c :: rest).length + 1 = rest.length + 1 + 1 by simp]
    rw [Chunker.restoreDotsCore]
    by_cases hp : ("<DOT>".toList.isPrefixOf (c :: rest)) = true
    · rw [if_pos hp, if_pos hp,
        restoreDotsCore_fuel f (rest.drop 4) hdlen,
        restoreDotsCore_fuel (rest.length + 1) (rest.drop 4) (by simp [List.length_drop])]
    · rw [if_neg hp, if_neg hp,
        restoreDotsCore_fuel f rest hlen,
        restoreDotsCore_fuel (rest.length + 1) rest (by omega)]

theorem restoreDots_dot (w : Str) :
    Chunker.restoreDots ('<' :: 'D' :: 'O' :: 'T' :: '>' :: w) = '.' :: Chunker.restoreDots w := by
  rw [Chunker.restoreDots,
    show ('<' :: 'D' :: 'O' :: 'T' :: '>' :: w).length + 1 = (w.length + 5) + 1 by simp]
  rw [Chunker.restoreDotsCore, if_pos (by simp [List.isPrefixOf])]
  rw [show List.drop 4 ('D' :: 'O' :: 'T' :: '>' :: w) = w from rfl]
  rw [restoreDotsCore_fuel (w.length + 5) w (by omega)]

theorem restoreDots_copy (c : Char) (w : Str)
    (h : ("<DOT>".toList.isPrefixOf (c :: w)) = false) :
    Chunker.restoreDots (c :: w) = c :: Chunker.restoreDots w := by
  rw [Chunker.restoreDots, show (c :: w).length + 1 = (w.length + 1) + 1 by simp]
  rw [Chunker.restoreDotsCore, if_neg (by rw [h]; exact Bool.false_ne_true)]
  rw [restoreDotsCore_fuel (w.length + 1) w (by omega)]

theorem ws_not_mem_dotpat (d : Char) (hd : PyStr.isWs d = true) :
    d ∉ "<DOT>".toList := by
  intro hmem
  fin_cases hmem <;> exact absurd hd (by decide)

theorem restoreDots_marker (w : Str) (hw : '<' ∉ w) (X : Str) :
    Chunker.restoreDots (w ++ '<' :: 'D' :: 'O' :: 'T' :: '>' :: X) =
      w ++ '.' :: Chunker.restoreDots X := by
  induction w with
  | nil => rw [List.nil_append, restoreDots_dot, List.nil_append]
  | cons a w2 ih =>
    have ha : a ≠ '<' := fun h => hw (h ▸ List.mem_cons_self a w2)
    have hp : ("<DOT>".toList.isPrefixOf (a :: (w2 ++ '<' :: 'D' :: 'O' :: 'T' :: '>' :: X))) = false := by
      simp [List.isPrefixOf]
      exact fun h => absurd h.symm ha
    rw [List.cons_append, restoreDots_copy a _ hp,
      ih (fun h => hw (List.mem_cons_of_mem a h)), List.cons_append]

theorem restoreDots_takeWhile_ws (z : Str) :
    Chunker.restoreDots z =
      z.takeWhile PyStr.isWs ++ Chunker.restoreDots (z.dropWhile PyStr.isWs) := by
  induction z with
  | nil => rfl
  | cons c z2 ih =>
    by_cases h : PyStr.isWs c = true
    · have hc : c ≠ '<' := fun hh => absurd (hh ▸ h) (by decide)
      have hp : ("<DOT>".toList.isPrefixOf (c :: z2)) = false := by
        simp [List.isPrefixOf]
        exact fun hh => absurd hh.symm hc
      rw [restoreDots_copy c z2 hp, List.takeWhile_cons, List.dropWhile_cons,
        if_pos h, if_pos h, List.cons_append, ih]
    · rw [List.takeWhile_cons, List.dropWhile_cons, if_neg h, if_neg h,
        List.nil_append]

theorem nws_restoreDots_dropWhile (z : Str) :
    nws (Chunker.restoreDots (z.dropWhile PyStr.isWs)) = nws (Chunker.restoreDots z) := by
  rw [restoreDots_takeWhile_ws z, nws_append,
    nws_zero_of_all_ws _ (fun c hc => List.mem_takeWhile_imp hc), zero_add]


theorem restore_append_ws : ∀ (n : Nat) (x z : Str), x.length ≤ n →
    (z = [] ∨ ∃ d y, z = d :: y ∧ PyStr.isWs d = true) →
    Chunker.restoreDots (x ++ z) = Chunker.restoreDots x ++ Chunker.restoreDots z
  | _, [], z, _, _ => by
    rw [List.nil_append, show Chunker.restoreDots [] = [] from rfl, List.nil_append]
  | 0, c :: x2, _, hn, _ => absurd hn (by simp)
  | n + 1, c :: x2, z, hn, hz => by
    by_cases hp : ("<DOT>".toList.isPrefixOf (c :: x2)) = true
    · obtain ⟨t, ht⟩ := List.isPrefixOf_iff_prefix.mp hp
      simp only [show "<DOT>".toList = ['<', 'D', 'O', 'T', '>'] from rfl,
        List.cons_append, List.nil_append, List.cons.injEq] at ht
      obtain ⟨rfl, rfl⟩ := ht
      have hlen : t.length ≤ n := by
        simp only [List.length_cons] at hn
        omega
      rw [List.cons_append, List.cons_append, List.cons_append, List.cons_append,
        List.cons_append, restoreDots_dot, restoreDots_dot,
        restore_append_ws n t z hlen hz, List.cons_append]
    · have hpf : ("<DOT>".toList.isPrefixOf (c :: x2)) = false := Bool.eq_false_iff.mpr hp
      have hp2 : ("<DOT>".toList.isPrefixOf (c :: (x2 ++ z))) = false := by
        rcases hz with rfl | ⟨d, y, rfl, hd⟩
        · rw [List.append_nil]; exact hpf
        · cases hpp : ("<DOT>".toList.isPrefixOf (c :: (x2 ++ d :: y))) with
          | false => rfl
          | true =>
            have hpp2 : ("<DOT>".toList.isPrefixOf ((c :: x2) ++ d :: y)) = true := by
              rw [List.cons_append]; exact hpp
            rcases straddle "<DOT>".toList (c :: x2) d y hpp2 with hl | hr
            · rw [hpf] at hl
              exact absurd hl (by simp)
            · exact absurd hr (ws_not_mem_dotpat d hd)
      have hlen : x2.length ≤ n := by
        simp only [List.length_cons] at hn
        omega
      rw [List.cons_append, restoreDots_copy c _ hp2, restoreDots_copy c x2 hpf,
        restore_append_ws n x2 z hlen hz, List.cons_append]

theorem abbrev_no_lt (w : Str) (hw : w ∈ Chunker.ABBREVS) : '<' ∉ w := by
  fin_cases hw <;> decide

theorem abbrev_not_dotpat (w : Str) (hw : w ∈ Chunker.ABBREVS) (P : Str)
    (hP : P ∈ [("DOT>".toList : Str), "OT>".toList, "T>".toList, ">".toList])
    (t : Str) : P.isPrefixOf (w ++ t) = false := by
  fin_cases hw <;> fin_cases hP <;> simp [List.isPrefixOf]

theorem sub_preserves_dotpat : ∀ (fuel : Nat) (s P : Str),
    P ∈ [("DOT>".toList : Str), "OT>".toList, "T>".toList, ">".toList] →
    P.isPrefixOf (Chunker.subAbbrevCore fuel s) = true → P.isPrefixOf s = true
  | 0, s, P, _, h => h
  | _ + 1, [], _, _, h => h
  | fuel + 1, c :: rest, P, hP, h => by
    rw [Chunker.subAbbrevCore] at h
    cases hfind : Chunker.ABBREVS.find?
        (fun w => (w ++ ['.']).isPrefixOf (c :: rest)) with
    | some w =>
      rw [hfind] at h
      dsimp only at h
      rw [List.append_assoc] at h
      rw [abbrev_not_dotpat w (List.mem_of_find?_eq_some hfind) P hP _] at h
      exact absurd h (by simp)
    | none =>
      rw [hfind] at h
      dsimp only at h
      fin_cases hP
      · rw [show ("DOT>".toList : Str) = 'D' :: "OT>".toList from rfl] at h ⊢
        rw [show ('D' :: "OT>".toList).isPrefixOf (c :: Chunker.subAbbrevCore fuel rest) =
          (('D' == c) && "OT>".toList.isPrefixOf (Chunker.subAbbrevCore fuel rest)) from rfl] at h
        rcases (Bool.and_eq_true _ _).mp h with ⟨h1, h2⟩
        have := sub_preserves_dotpat fuel rest "OT>".toList (by simp) h2
        rw [show ('D' :: "OT>".toList).isPrefixOf (c :: rest) =
          (('D' == c) && "OT>".toList.isPrefixOf rest) from rfl, h1, this]
        rfl
      · rw [show ("OT>".toList : Str) = 'O' :: "T>".toList from rfl] at h ⊢
        rw [show ('O' :: "T>".toList).isPrefixOf (c :: Chunker.subAbbrevCore fuel rest) =
          (('O' == c) && "T>".toList.isPrefixOf (Chunker.subAbbrevCore fuel rest)) from rfl] at h
        rcases (Bool.and_eq_true _ _).mp h with ⟨h1, h2⟩
        have := sub_preserves_dotpat fuel rest "T>".toList (by simp) h2
        rw [show ('O' :: "T>".toList).isPrefixOf (c :: rest) =
          (('O' == c) && "T>".toList.isPrefixOf rest) from rfl, h1, this]
        rfl
      · rw [show ("T>".toList : Str) = 'T' :: ">".toList from rfl] at h ⊢
        rw [show ('T' :: ">".toList).isPrefixOf (c :: Chunker.subAbbrevCore fuel rest) =
          (('T' == c) && ">".toList.isPrefixOf (Chunker.subAbbrevCore fuel rest)) from rfl] at h
        rcases (Bool.and_eq_true _ _).mp h with ⟨h1, h2⟩
        have := sub_preserves_dotpat fuel rest ">".toList (by simp) h2
        rw [show ('T' :: ">".toList).isPrefixOf (c :: rest) =
          (('T' == c) && ">".toList.isPrefixOf rest) from rfl, h1, this]
        rfl
      · rw [show (">".toList : Str) = '>' :: [] from rfl] at h ⊢
        rw [show ('>' :: []).isPrefixOf (c :: Chunker.subAbbrevCore fuel rest) =
          (('>' == c) && ([] : Str).isPrefixOf (Chunker.subAbbrevCore fuel rest)) from rfl] at h
        rcases (Bool.and_eq_true _ _).mp h with ⟨h1, _⟩
        rw [show ('>' :: []).isPrefixOf (c :: rest) =
          (('>' == c) && ([] : Str).isPrefixOf rest) from rfl, h1]
        simp [List.isPrefixOf]

theorem abbrev_ne_nil (w : Str) (hw : w ∈ Chunker.ABBREVS) : w ≠ [] := by
  fin_cases hw <;> decide

theorem restore_subAbbrev : ∀ (fuel : Nat) (s : Str), s.length + 1 ≤ fuel →
    PyStr.containsSub "<DOT>".toList s = false →
    Chunker.restoreDots (Chunker.subAbbrevCore fuel s) = s
  | 0, _, h, _ => absurd h (by omega)
  | _ + 1, [], _, _ => by rw [Chunker.subAbbrevCore]; rfl
  | fuel + 1, c :: rest, hf, hnd => by
    rw [Chunker.subAbbrevCore]
    cases hfind : Chunker.ABBREVS.find?
        (fun w => (w ++ ['.']).isPrefixOf (c :: rest)) with
    | some w =>
      dsimp only
      have hw : w ∈ Chunker.ABBREVS := List.mem_of_find?_eq_some hfind
      have hpre : ((w ++ ['.']).isPrefixOf (c :: rest)) = true := by
        have := List.find?_some hfind
        simpa using this
      obtain ⟨t, ht⟩ := List.isPrefixOf_iff_prefix.mp hpre
      have hdrop : rest.drop w.length = t := by
        have h1 := List.drop_left (w ++ ['.']) t
        rw [ht] at h1
        simp only [List.length_append, List.length_cons, List.length_nil] at h1
        rw [show w.length + (0 + 1) = w.length + 1 by omega] at h1
        rwa [List.drop_succ_cons] at h1
      have hlt : t.length + 1 ≤ fuel := by
        have : (c :: rest).length = w.length + 1 + t.length := by
          rw [← ht]
          simp
          omega
        simp only [List.length_cons] at this hf
        omega
      have hndt : PyStr.containsSub "<DOT>".toList t = false := by
        refine csub_within _ t (c :: rest) ⟨w ++ ['.'], [], by rw [List.append_nil, ht]⟩ hnd
      rw [List.append_assoc,
        show "<DOT>".toList ++ Chunker.subAbbrevCore fuel (rest.drop w.length) =
          '<' :: 'D' :: 'O' :: 'T' :: '>' :: Chunker.subAbbrevCore fuel (rest.drop w.length)
          from rfl,
        restoreDots_marker w (abbrev_no_lt w hw) _,
        hdrop, restore_subAbbrev fuel t hlt hndt]
      rw [← ht, List.append_assoc]
      rfl
    | none =>
      dsimp only
      have hfr : rest.length + 1 ≤ fuel := by
        simp only [List.length_cons] at hf
        omega
      have hndr : PyStr.containsSub "<DOT>".toList rest = false := csub_tail _ c rest hnd
      have hp : ("<DOT>".toList.isPrefixOf (c :: Chunker.subAbbrevCore fuel rest)) = false := by
        cases hpp : ("<DOT>".toList.isPrefixOf (c :: Chunker.subAbbrevCore fuel rest)) with
        | false => rfl
        | true =>
          rw [show ("<DOT>".toList : Str) = '<' :: "DOT>".toList from rfl] at hpp
          rw [show ('<' :: "DOT>".toList).isPrefixOf (c :: Chunker.subAbbrevCore fuel rest) =
            (('<' == c) && "DOT>".toList.isPrefixOf (Chunker.subAbbrevCore fuel rest))
            from rfl] at hpp
          rcases (Bool.and_eq_true _ _).mp hpp with ⟨h1, h2⟩
          have h3 := sub_preserves_dotpat fuel rest "DOT>".toList (by simp) h2
          have h4 : ("<DOT>".toList.isPrefixOf (c :: rest)) = true := by
            rw [show ("<DOT>".toList : Str) = '<' :: "DOT>".toList from rfl,
              show ('<' :: "DOT>".toList).isPrefixOf (c :: rest) =
                (('<' == c) && "DOT>".toList.isPrefixOf rest) from rfl, h1, h3]
            rfl
          rw [csub_head _ c rest hnd] at h4
          exact absurd h4 (by simp)
      rw [restoreDots_copy c _ hp, restore_subAbbrev fuel rest hfr hndr]

theorem sentSplit_restore_nws : ∀ (fuel : Nat) (s acc : Str) (prev : Option Char),
    s.length + 1 ≤ fuel →
    ((Chunker.sentSplitCore fuel s acc prev).map
        (fun p => nws (Chunker.restoreDots p))).sum =
      nws (Chunker.restoreDots (acc.reverse ++ s))
  | 0, _, _, _, h => absurd h (by omega)
  | _ + 1, [], acc, prev, _ => by
    rw [Chunker.sentSplitCore]
    simp
  | fuel + 1, c :: rest, acc, prev, hf => by
    have hfr : rest.length + 1 ≤ fuel := by
      simp only [List.length_cons] at hf
      omega
    have hrec :
        ((Chunker.sentSplitCore fuel rest (c :: acc) (some c)).map
            (fun p => nws (Chunker.restoreDots p))).sum =
          nws (Chunker.restoreDots (acc.reverse ++ c :: rest)) := by
      rw [sentSplit_restore_nws fuel rest (c :: acc) (some c) hfr,
        List.reverse_cons, List.append_assoc, List.singleton_append]
    simp only [Chunker.sentSplitCore]
    by_cases hcond : ((match prev with
        | some p => Chunker.isSentEnd p
        | none => false) && PyStr.isWs c) = true
    · rw [if_pos hcond]
      have hc : PyStr.isWs c = true := ((Bool.and_eq_true _ _).mp hcond).2
      cases hdw : (c :: rest).dropWhile PyStr.isWs with
      | nil => exact hrec
      | cons d tail =>
        dsimp only
        by_cases hup : d.isUpper = true
        · rw [if_pos hup]
          have hlen2 : (d :: tail).length + 1 ≤ fuel := by
            have h1 : (d :: tail).length ≤ rest.length := by
              rw [← hdw, List.dropWhile_cons, if_pos hc]
              exact (List.dropWhile_sublist _).length_le
            omega
          rw [List.map_cons, List.sum_cons,
            sentSplit_restore_nws fuel (d :: tail) [] none hlen2]
          rw [restore_append_ws (acc.reverse.length) acc.reverse (c :: rest) (le_refl _)
            (Or.inr ⟨c, rest, rfl, hc⟩)]
          rw [nws_append]
          congr 1
          rw [← nws_restoreDots_dropWhile (c :: rest), hdw]
          simp
        · rw [if_neg hup]; exact hrec
    · rw [if_neg hcond]; exact hrec

theorem sentSplit_piece_within : ∀ (fuel : Nat) (s acc : Str) (prev : Option Char),
    s.length + 1 ≤ fuel →
    ∀ p ∈ Chunker.sentSplitCore fuel s acc prev,
      Chunker.restoreDots p <:+: Chunker.restoreDots (acc.reverse ++ s)
  | 0, _, _, _, h => fun _ _ => absurd h (by omega)
  | _ + 1, [], acc, prev, _ => by
    rw [Chunker.sentSplitCore]
    intro p hp
    rw [List.mem_singleton.mp hp, List.append_nil]
  | fuel + 1, c :: rest, acc, prev, hf => by
    have hfr : rest.length + 1 ≤ fuel := by
      simp only [List.length_cons] at hf
      omega
    have hrec : ∀ p ∈ Chunker.sentSplitCore fuel rest (c :: acc) (some c),
        Chunker.restoreDots p <:+: Chunker.restoreDots (acc.reverse ++ c :: rest) := by
      intro p hp
      have := sentSplit_piece_within fuel rest (c :: acc) (some c) hfr p hp
      rwa [List.reverse_cons, List.append_assoc, List.singleton_append] at this
    simp only [Chunker.sentSplitCore]
    by_cases hcond : ((match prev with
        | some p => Chunker.isSentEnd p
        | none => false) && PyStr.isWs c) = true
    · rw [if_pos hcond]
      have hc : PyStr.isWs c = true := ((Bool.and_eq_true _ _).mp hcond).2
      have hsplitws : Chunker.restoreDots (acc.reverse ++ c :: rest) =
          Chunker.restoreDots acc.reverse ++ Chunker.restoreDots (c :: rest) :=
        restore_append_ws (acc.reverse.length) acc.reverse (c :: rest) (le_refl _)
          (Or.inr ⟨c, rest, rfl, hc⟩)
      cases hdw : (c :: rest).dropWhile PyStr.isWs with
      | nil => exact hrec
      | cons d tail =>
        dsimp only
        by_cases hup : d.isUpper = true
        · rw [if_pos hup]
          intro p hp
          rcases List.mem_cons.mp hp with rfl | hp2
          · rw [hsplitws]
            exact (List.prefix_append _ _).isInfix
          · have hlen2 : (d :: tail).length + 1 ≤ fuel := by
              have h1 : (d :: tail).length ≤ rest.length := by
                rw [← hdw, List.dropWhile_cons, if_pos hc]
                exact (List.dropWhile_sublist _).length_le
              omega
            have h2 : Chunker.restoreDots p <:+: Chunker.restoreDots (d :: tail) := by
              simpa using sentSplit_piece_within fuel (d :: tail) [] none hlen2 p hp2
            have h3 : Chunker.restoreDots (d :: tail) <:+: Chunker.restoreDots (c :: rest) := by
              rw [restoreDots_takeWhile_ws (c :: rest), hdw]
              exact (List.suffix_append _ _).isInfix
            have h4 : Chunker.restoreDots (c :: rest) <:+:
                Chunker.restoreDots (acc.reverse ++ c :: rest) := by
              rw [hsplitws]
              exact (List.suffix_append _ _).isInfix
            exact (h2.trans h3).trans h4
        · rw [if_neg hup]; exact hrec
    · rw [if_neg hcond]; exact hrec

theorem split_sentences_noDOT (s : Str)
    (h : PyStr.containsSub "<DOT>".toList s = false) :
    ∀ q ∈ Chunker.split_sentences s, PyStr.containsSub "<DOT>".toList q = false := by
  intro q hq
  rw [Chunker.split_sentences] at hq
  obtain ⟨p, hp, rfl⟩ := List.mem_map.mp hq
  have hmemb : p ∈ Chunker.sentSplitCore ((Chunker.subAbbrev s).length + 1)
      (Chunker.subAbbrev s) [] none := by
    have := (List.mem_filter.mp hp).1
    rwa [Chunker.sentSplitAux] at this
  have hinfix := sentSplit_piece_within ((Chunker.subAbbrev s).length + 1)
    (Chunker.subAbbrev s) [] none (le_refl _) p hmemb
  rw [List.reverse_nil, List.nil_append, Chunker.subAbbrev,
    restore_subAbbrev (s.length + 1) s (le_refl _) h] at hinfix
  exact csub_within _ _ s ((strip_infix_self (Chunker.restoreDots p)).trans hinfix) h

theorem split_sentences_nws (s : Str)
    (h : PyStr.containsSub "<DOT>".toList s = false) :
    ((Chunker.split_sentences s).map nws).sum = nws s := by
  rw [Chunker.split_sentences, List.map_map]
  have hcong : ((Chunker.sentSplitAux (Chunker.subAbbrev s) [] none).filter
        (fun p => PyStr.strip p ≠ [])).map
        (nws ∘ fun p => PyStr.strip (Chunker.restoreDots p)) =
      ((Chunker.sentSplitAux (Chunker.subAbbrev s) [] none).filter
        (fun p => PyStr.strip p ≠ [])).map
        (fun p => nws (Chunker.restoreDots p)) := by
    refine List.map_congr_left ?_
    intro p _
    simp [Function.comp, nws_strip]
  rw [hcong]
  rw [sum_map_filter_nws (fun p => nws (Chunker.restoreDots p)) _ _ ?hz]
  case hz =>
    intro x _ hx
    have hsx : PyStr.strip x = [] := by simpa using hx
    have hall := all_ws_of_nws_zero x (nws_zero_of_strip_nil x hsx)
    have hdw : x.dropWhile PyStr.isWs = [] := by
      rw [List.dropWhile_eq_nil_iff]
      intro c hc
      simpa using hall c hc
    show nws (Chunker.restoreDots x) = 0
    rw [← nws_restoreDots_dropWhile x, hdw]
    rfl
  rw [Chunker.sentSplitAux,
    sentSplit_restore_nws ((Chunker.subAbbrev s).length + 1) (Chunker.subAbbrev s) [] none
      (le_refl _)]
  rw [List.reverse_nil, List.nil_append, Chunker.subAbbrev,
    restore_subAbbrev (s.length + 1) s (le_refl _) h]

theorem joinSep_cons_ne (sep a : Str) (L : List Str) (h : L ≠ []) :
    PyStr.joinSep sep (a :: L) = a ++ sep ++ PyStr.joinSep sep L := by
  cases L with
  | nil => exact absurd rfl h
  | cons q rest => rw [PyStr.joinSep]

theorem splitSepCore_ne_nil (c0 : Char) (sep : Str) : ∀ (fuel : Nat) (s acc : Str),
    PyStr.splitSepCore c0 sep fuel s acc ≠ []
  | 0, s, acc => by rw [PyStr.splitSepCore]; simp
  | _ + 1, [], acc => by rw [PyStr.splitSepCore]; simp
  | fuel + 1, c :: rest, acc => by
    rw [PyStr.splitSepCore]
    by_cases hp : ((c0 :: sep).isPrefixOf (c :: rest)) = true
    · rw [if_pos hp]; simp
    · rw [if_neg hp]; exact splitSepCore_ne_nil c0 sep fuel rest (c :: acc)

theorem joinSep_splitSepCore (c0 : Char) (sep : Str) : ∀ (fuel : Nat) (s acc : Str),
    s.length + 1 ≤ fuel →
    PyStr.joinSep (c0 :: sep) (PyStr.splitSepCore c0 sep fuel s acc) = acc.reverse ++ s
  | 0, _, _, hf => absurd hf (by omega)
  | _ + 1, [], acc, _ => by
    rw [PyStr.splitSepCore, PyStr.joinSep]
    simp
  | fuel + 1, c :: rest, acc, hf => by
    rw [PyStr.splitSepCore]
    by_cases hp : ((c0 :: sep).isPrefixOf (c :: rest)) = true
    · rw [if_pos hp]
      rw [joinSep_cons_ne (c0 :: sep) acc.reverse _
        (splitSepCore_ne_nil c0 sep fuel (rest.drop sep.length) [])]
      have hlen : (rest.drop sep.length).length + 1 ≤ fuel := by
        simp only [List.length_cons] at hf
        simp only [List.length_drop]
        omega
      rw [joinSep_splitSepCore c0 sep fuel (rest.drop sep.length) [] hlen]
      obtain ⟨t, ht⟩ := List.isPrefixOf_iff_prefix.mp hp
      have hdrop : rest.drop sep.length = t := by
        have h1 := List.drop_left (c0 :: sep) t
        rw [ht] at h1
        simp only [List.length_cons] at h1
        rwa [List.drop_succ_cons] at h1
      rw [List.reverse_nil, List.nil_append, hdrop, List.append_assoc, ht]
    · rw [if_neg hp]
      have hlen : rest.length + 1 ≤ fuel := by
        simp only [List.length_cons] at hf
        omega
      rw [joinSep_splitSepCore c0 sep fuel rest (c :: acc) hlen,
        List.reverse_cons, List.append_assoc, List.singleton_append]

theorem joinSep_splitSep (sep : Str) (hne : sep ≠ []) (s : Str) :
    PyStr.joinSep sep (PyStr.splitSep sep s) = s := by
  cases sep with
  | nil => exact absurd rfl hne
  | cons c0 sepRest =>
    rw [PyStr.splitSep]
    rw [joinSep_splitSepCore c0 sepRest (s.length + 1) s [] (le_refl _)]
    rfl

theorem para_sep_ws : ∀ c ∈ "\n\n".toList, PyStr.isWs c = true := by
  intro c hc
  fin_cases hc <;> decide

theorem split_by_paragraph_nws (t : Str) :
    ((Chunker.split_by_paragraph t).map nws).sum = nws t := by
  rw [Chunker.split_by_paragraph]
  rw [sum_map_filter_nws nws _ _ ?hz]
  case hz =>
    intro x _ hx
    have : x = [] := by simpa using hx
    rw [this]
    rfl
  rw [List.map_map]
  have hcong : ((PyStr.splitSep "\n\n".toList t).map (nws ∘ PyStr.strip)) =
      ((PyStr.splitSep "\n\n".toList t).map nws) := by
    refine List.map_congr_left ?_
    intro p _
    simp [Function.comp, nws_strip]
  rw [hcong]
  rw [← nws_joinSep_ws "\n\n".toList para_sep_ws (PyStr.splitSep "\n\n".toList t)]
  rw [joinSep_splitSep "\n\n".toList (by decide) t]

theorem split_by_paragraph_noDOT (t : Str)
    (h : PyStr.containsSub "<DOT>".toList t = false) :
    ∀ p ∈ Chunker.split_by_paragraph t, PyStr.containsSub "<DOT>".toList p = false := by
  intro p hp
  rw [Chunker.split_by_paragraph] at hp
  have hp1 := (List.mem_filter.mp hp).1
  obtain ⟨x, hx, rfl⟩ := List.mem_map.mp hp1
  have hxinf : x <:+: t := by
    have h1 := joinSep_mem_within "\n\n".toList (PyStr.splitSep "\n\n".toList t) x hx
    rwa [joinSep_splitSep "\n\n".toList (by decide) t] at h1
  exact csub_within _ _ t ((strip_infix_self x).trans hxinf) h

theorem overlapAux_mem (cfg : Chunker.ChunkerConfig) : ∀ (l acc : List Str) (ot : Nat) (x : Str),
    x ∈ (Chunker.overlapAux cfg l acc ot).1 → x ∈ l ∨ x ∈ acc
  | [], acc, ot, x => fun hx => Or.inr (by simpa [Chunker.overlapAux] using hx)
  | s :: rest, acc, ot, x => fun hx => by
    rw [Chunker.overlapAux] at hx
    by_cases hc : ot + Chunker.estimate_tokens s ≤ cfg.chunk_overlap
    · rw [if_pos hc] at hx
      rcases overlapAux_mem cfg rest (s :: acc) (ot + Chunker.estimate_tokens s) x hx with h1 | h2
      · exact Or.inl (List.mem_cons_of_mem s h1)
      · rcases List.mem_cons.mp h2 with rfl | h3
        · exact Or.inl (List.mem_cons_self x rest)
        · exact Or.inr h3
    · rw [if_neg hc] at hx
      exact Or.inr hx

theorem overlapOf_mem (cfg : Chunker.ChunkerConfig) (current : List Str) (x : Str)
    (hx : x ∈ (Chunker.overlapOf cfg current).1) : x ∈ current := by
  rw [Chunker.overlapOf] at hx
  rcases overlapAux_mem cfg current.reverse [] 0 x hx with h1 | h2
  · exact List.mem_reverse.mp h1
  · exact absurd h2 (List.not_mem_nil x)

theorem space_sep_ws : ∀ c ∈ ([' '] : Str), PyStr.isWs c = true := by
  intro c hc
  fin_cases hc <;> decide

theorem joinSep_space_noDOT : ∀ (L : List Str),
    (∀ x ∈ L, PyStr.containsSub "<DOT>".toList x = false) →
    PyStr.containsSub "<DOT>".toList (PyStr.joinSep [' '] L) = false
  | [], _ => rfl
  | [p], h => by
    rw [PyStr.joinSep]
    exact h p (List.mem_singleton_self p)
  | p :: q :: rest, h => by
    rw [PyStr.joinSep, List.append_assoc]
    exact csub_append_mid _ p ' ' _ (ws_not_mem_dotpat ' ' (by decide))
      (h p (List.mem_cons_self p _))
      (joinSep_space_noDOT (q :: rest) (fun x hx => h x (List.mem_cons_of_mem p hx)))

theorem sentLoop_nws (cfg : Chunker.ChunkerConfig) :
    ∀ (sents chunks current : List Str) (ct : Nat),
    (chunks.map nws).sum + (current.map nws).sum + (sents.map nws).sum ≤
      ((Chunker.sentLoop cfg sents chunks current ct).1.map nws).sum +
        ((Chunker.sentLoop cfg sents chunks current ct).2.1.map nws).sum
  | [], chunks, current, ct => by
    rw [Chunker.sentLoop]
    simp
  | sent :: rest, chunks, current, ct => by
    simp only [Chunker.sentLoop]
    split
    · have hIH := sentLoop_nws cfg rest (chunks ++ [PyStr.joinSep [' '] current])
        ((Chunker.overlapOf cfg current).1 ++ [sent])
        ((Chunker.overlapOf cfg current).2 + Chunker.estimate_tokens sent)
      refine Multiset.le_iff_count.mpr (fun ch => ?_)
      have h1 := Multiset.le_iff_count.mp hIH ch
      simp only [List.map_append, List.map_cons, List.sum_append, List.sum_cons,
        List.map_nil, List.sum_nil, add_zero, Multiset.count_add] at h1 ⊢
      rw [nws_joinSep_ws [' '] space_sep_ws current] at h1
      omega
    · have hIH := sentLoop_nws cfg rest chunks (current ++ [sent])
        (ct + Chunker.estimate_tokens sent)
      refine Multiset.le_iff_count.mpr (fun ch => ?_)
      have h1 := Multiset.le_iff_count.mp hIH ch
      simp only [List.map_append, List.map_cons, List.sum_append, List.sum_cons,
        List.map_nil, List.sum_nil, add_zero, Multiset.count_add] at h1 ⊢
      omega

theorem sentLoop_noDOT (cfg : Chunker.ChunkerConfig) :
    ∀ (sents chunks current : List Str) (ct : Nat),
    (∀ x ∈ sents, PyStr.containsSub "<DOT>".toList x = false) →
    (∀ x ∈ chunks, PyStr.containsSub "<DOT>".toList x = false) →
    (∀ x ∈ current, PyStr.containsSub "<DOT>".toList x = false) →
    (∀ x ∈ (Chunker.sentLoop cfg sents chunks current ct).1,
        PyStr.containsSub "<DOT>".toList x = false) ∧
      (∀ x ∈ (Chunker.sentLoop cfg sents chunks current ct).2.1,
        PyStr.containsSub "<DOT>".toList x = false)
  | [], chunks, current, ct => fun _ hc hcur => by
    rw [Chunker.sentLoop]
    exact ⟨hc, hcur⟩
  | sent :: rest, chunks, current, ct => fun hs hc hcur => by
    have hsent := hs sent (List.mem_cons_self sent rest)
    have hrest : ∀ x ∈ rest, PyStr.containsSub "<DOT>".toList x = false :=
      fun x hx => hs x (List.mem_cons_of_mem sent hx)
    simp only [Chunker.sentLoop]
    split
    · refine sentLoop_noDOT cfg rest _ _ _ hrest ?_ ?_
      · intro x hx
        rcases List.mem_append.mp hx with h1 | h2
        · exact hc x h1
        · rw [List.mem_singleton.mp h2]
          exact joinSep_space_noDOT current hcur
      · intro x hx
        rcases List.mem_append.mp hx with h1 | h2
        · exact hcur x (overlapOf_mem cfg current x h1)
        · rw [List.mem_singleton.mp h2]
          exact hsent
    · refine sentLoop_noDOT cfg rest _ _ _ hrest hc ?_
      intro x hx
      rcases List.mem_append.mp hx with h1 | h2
      · exact hcur x h1
      · rw [List.mem_singleton.mp h2]
        exact hsent

theorem paraLoop_nws (cfg : Chunker.ChunkerConfig) :
    ∀ (paras chunks current : List Str) (ct : Nat),
    (∀ p ∈ paras, PyStr.containsSub "<DOT>".toList p = false) →
    (chunks.map nws).sum + (current.map nws).sum + (paras.map nws).sum ≤
      ((Chunker.paraLoop cfg paras chunks current ct).1.map nws).sum +
        ((Chunker.paraLoop cfg paras chunks current ct).2.1.map nws).sum
  | [], chunks, current, ct => fun _ => by
    rw [Chunker.paraLoop]
    simp
  | para :: rest, chunks, current, ct => fun hnd => by
    have hpara := hnd para (List.mem_cons_self para rest)
    have hrest : ∀ p ∈ rest, PyStr.containsSub "<DOT>".toList p = false :=
      fun p hp => hnd p (List.mem_cons_of_mem para hp)
    simp only [Chunker.paraLoop]
    split
    · split
      · have hsl := sentLoop_nws cfg (Chunker.split_sentences para)
          (chunks ++ [PyStr.joinSep [' '] current]) [] 0
        have hIH := paraLoop_nws cfg rest
          (Chunker.sentLoop cfg (Chunker.split_sentences para)
            (chunks ++ [PyStr.joinSep [' '] current]) [] 0).1
          (Chunker.sentLoop cfg (Chunker.split_sentences para)
            (chunks ++ [PyStr.joinSep [' '] current]) [] 0).2.1
          (Chunker.sentLoop cfg (Chunker.split_sentences para)
            (chunks ++ [PyStr.joinSep [' '] current]) [] 0).2.2 hrest
        refine Multiset.le_iff_count.mpr (fun ch => ?_)
        have h1 := Multiset.le_iff_count.mp hIH ch
        have h2 := Multiset.le_iff_count.mp hsl ch
        rw [split_sentences_nws para hpara] at h2
        simp only [List.map_append, List.map_cons, List.sum_append, List.sum_cons,
          List.map_nil, List.sum_nil, add_zero, Multiset.count_add] at h1 h2 ⊢
        rw [nws_joinSep_ws [' '] space_sep_ws current] at h2
        omega
      · have hsl := sentLoop_nws cfg (Chunker.split_sentences para) chunks current ct
        have hIH := paraLoop_nws cfg rest
          (Chunker.sentLoop cfg (Chunker.split_sentences para) chunks current ct).1
          (Chunker.sentLoop cfg (Chunker.split_sentences para) chunks current ct).2.1
          (Chunker.sentLoop cfg (Chunker.split_sentences para) chunks current ct).2.2 hrest
        refine Multiset.le_iff_count.mpr (fun ch => ?_)
        have h1 := Multiset.le_iff_count.mp hIH ch
        have h2 := Multiset.le_iff_count.mp hsl ch
        rw [split_sentences_nws para hpara] at h2
        simp only [List.map_append, List.map_cons, List.sum_append, List.sum_cons,
          List.map_nil, List.sum_nil, add_zero, Multiset.count_add] at h1 h2 ⊢
        omega
    · split
      · split
        · have hIH := paraLoop_nws cfg rest (chunks ++ [PyStr.joinSep [' '] current])
            ([(current.getLast?).getD []] ++ [para])
            (Chunker.estimate_tokens ((current.getLast?).getD []) +
              Chunker.estimate_tokens para) hrest
          refine Multiset.le_iff_count.mpr (fun ch => ?_)
          have h1 := Multiset.le_iff_count.mp hIH ch
          simp only [List.map_append, List.map_cons, List.sum_append, List.sum_cons,
            List.map_nil, List.sum_nil, add_zero, Multiset.count_add] at h1 ⊢
          rw [nws_joinSep_ws [' '] space_sep_ws current] at h1
          omega
        · have hIH := paraLoop_nws cfg rest (chunks ++ [PyStr.joinSep [' '] current])
            ([] ++ [para]) (0 + Chunker.estimate_tokens para) hrest
          refine Multiset.le_iff_count.mpr (fun ch => ?_)
          have h1 := Multiset.le_iff_count.mp hIH ch
          simp only [List.map_append, List.map_cons, List.sum_append, List.sum_cons,
            List.map_nil, List.sum_nil, add_zero, List.nil_append,
            Multiset.count_add] at h1 ⊢
          rw [nws_joinSep_ws [' '] space_sep_ws current] at h1
          omega
      · have hIH := paraLoop_nws cfg rest chunks (current ++ [para])
          (ct + Chunker.estimate_tokens para) hrest
        refine Multiset.le_iff_count.mpr (fun ch => ?_)
        have h1 := Multiset.le_iff_count.mp hIH ch
        simp only [List.map_append, List.map_cons, List.sum_append, List.sum_cons,
          List.map_nil, List.sum_nil, add_zero, Multiset.count_add] at h1 ⊢
        omega

theorem getLastD_noDOT (current : List Str)
    (hcur : ∀ x ∈ current, PyStr.containsSub "<DOT>".toList x = false) :
    PyStr.containsSub "<DOT>".toList ((current.getLast?).getD []) = false := by
  cases hcl : current.getLast? with
  | none => rfl
  | some last =>
    have hmem : last ∈ current := by
      have h2 := List.dropLast_append_getLast? last (Option.mem_def.mpr hcl)
      rw [← h2]
      exact List.mem_append.mpr (Or.inr (List.mem_singleton_self last))
    exact hcur last hmem

theorem paraLoop_noDOT (cfg : Chunker.ChunkerConfig) :
    ∀ (paras chunks current : List Str) (ct : Nat),
    (∀ p ∈ paras, PyStr.containsSub "<DOT>".toList p = false) →
    (∀ x ∈ chunks, PyStr.containsSub "<DOT>".toList x = false) →
    (∀ x ∈ current, PyStr.containsSub "<DOT>".toList x = false) →
    (∀ x ∈ (Chunker.paraLoop cfg paras chunks current ct).1,
        PyStr.containsSub "<DOT>".toList x = false) ∧
      (∀ x ∈ (Chunker.paraLoop cfg paras chunks current ct).2.1,
        PyStr.containsSub "<DOT>".toList x = false)
  | [], chunks, current, ct => fun _ hc hcur => by
    rw [Chunker.paraLoop]
    exact ⟨hc, hcur⟩
  | para :: rest, chunks, current, ct => fun hnd hc hcur => by
    have hpara := hnd para (List.mem_cons_self para rest)
    have hrest : ∀ p ∈ rest, PyStr.containsSub "<DOT>".toList p = false :=
      fun p hp => hnd p (List.mem_cons_of_mem para hp)
    have happ : ∀ x ∈ chunks ++ [PyStr.joinSep [' '] current],
        PyStr.containsSub "<DOT>".toList x = false := by
      intro x hx
      rcases List.mem_append.mp hx with h1 | h2
      · exact hc x h1
      · rw [List.mem_singleton.mp h2]
        exact joinSep_space_noDOT current hcur
    simp only [Chunker.paraLoop]
    split
    · split
      · have hsl := sentLoop_noDOT cfg (Chunker.split_sentences para)
          (chunks ++ [PyStr.joinSep [' '] current]) [] 0
          (split_sentences_noDOT para hpara) happ
          (fun x hx => absurd hx (List.not_mem_nil x))
        exact paraLoop_noDOT cfg rest _ _ _ hrest hsl.1 hsl.2
      · have hsl := sentLoop_noDOT cfg (Chunker.split_sentences para)
          chunks current ct (split_sentences_noDOT para hpara) hc hcur
        exact paraLoop_noDOT cfg rest _ _ _ hrest hsl.1 hsl.2
    · split
      · split
        · refine paraLoop_noDOT cfg rest _ _ _ hrest happ ?_
          intro x hx
          rcases List.mem_append.mp hx with h1 | h2
          · rw [List.mem_singleton.mp h1]
            exact getLastD_noDOT current hcur
          · rw [List.mem_singleton.mp h2]
            exact hpara
        · refine paraLoop_noDOT cfg rest _ _ _ hrest happ ?_
          intro x hx
          have hx2 : x ∈ [para] := by simpa using hx
          rw [List.mem_singleton.mp hx2]
          exact hpara
      · refine paraLoop_noDOT cfg rest _ _ _ hrest hc ?_
        intro x hx
        rcases List.mem_append.mp hx with h1 | h2
        · exact hcur x h1
        · rw [List.mem_singleton.mp h2]
          exact hpara

theorem sum_map_take_drop (f : Str → Multiset Char) (n : Nat) (l : List Str) :
    (l.map f).sum = ((l.take n).map f).sum + ((l.drop n).map f).sum := by
  conv_lhs => rw [← List.take_append_drop n l]
  simp [List.map_append]

theorem auto_split_nws (cfg : Chunker.ChunkerConfig) : ∀ (fuel : Nat) (chunk : Str),
    PyStr.containsSub "<DOT>".toList chunk = false →
    ((Chunker.auto_split_fuel cfg fuel chunk).map nws).sum = nws chunk
  | 0, chunk, _ => by
    rw [Chunker.auto_split_fuel]
    simp
  | fuel + 1, chunk, hnd => by
    simp only [Chunker.auto_split_fuel]
    split
    · simp
    · split
      · simp only [List.map_cons, List.sum_cons, List.map_nil, List.sum_nil, add_zero]
        rw [← nws_append, List.take_append_drop]
      · have hsent := split_sentences_noDOT chunk hnd
        have h1 := auto_split_nws cfg fuel
          (PyStr.joinSep [' '] ((Chunker.split_sentences chunk).take
            ((Chunker.split_sentences chunk).length / 2)))
          (joinSep_space_noDOT _ (fun x hx => hsent x (List.take_subset _ _ hx)))
        have h2 := auto_split_nws cfg fuel
          (PyStr.joinSep [' '] ((Chunker.split_sentences chunk).drop
            ((Chunker.split_sentences chunk).length / 2)))
          (joinSep_space_noDOT _ (fun x hx => hsent x (List.drop_subset _ _ hx)))
        rw [List.map_append, List.sum_append, h1, h2,
          nws_joinSep_ws [' '] space_sep_ws, nws_joinSep_ws [' '] space_sep_ws,
          ← sum_map_take_drop nws ((Chunker.split_sentences chunk).length / 2),
          split_sentences_nws chunk hnd]

theorem flatMap_split_nws (cfg : Chunker.ChunkerConfig) : ∀ (chunks : List Str),
    (∀ c ∈ chunks, PyStr.containsSub "<DOT>".toList c = false) →
    ((chunks.flatMap (fun c =>
        if Chunker.estimate_tokens c > cfg.max_chunk_size
        then Chunker.auto_split_oversized cfg c else [c])).map nws).sum =
      (chunks.map nws).sum
  | [], _ => rfl
  | c :: rest, h => by
    rw [List.flatMap_cons, List.map_append, List.sum_append,
      flatMap_split_nws cfg rest (fun x hx => h x (List.mem_cons_of_mem c hx))]
    simp only [List.map_cons, List.sum_cons]
    congr 1
    split
    · rw [Chunker.auto_split_oversized,
        auto_split_nws cfg _ c (h c (List.mem_cons_self c rest))]
    · simp

theorem mergeCore_nws (cfg : Chunker.ChunkerConfig) : ∀ (chunks buffer : List Str) (bt : Nat),
    ((Chunker.mergeCore cfg chunks buffer bt).1.map nws).sum +
      ((Chunker.mergeCore cfg chunks buffer bt).2.map nws).sum =
      (chunks.map nws).sum + (buffer.map nws).sum
  | [], buffer, bt => by
    rw [Chunker.mergeCore]
  | c :: rest, buffer, bt => by
    have hIH0 := mergeCore_nws cfg rest [] 0
    simp only [Chunker.mergeCore]
    split
    · split
      · refine Multiset.ext.mpr (fun ch => ?_)
        have h1 := congrArg (Multiset.count ch) hIH0
        simp only [List.map_append, List.map_cons, List.sum_append, List.sum_cons,
          List.map_nil, List.sum_nil, add_zero, Multiset.count_add] at h1 ⊢
        rw [nws_joinSep_ws [' '] space_sep_ws buffer]
        omega
      · refine Multiset.ext.mpr (fun ch => ?_)
        have h1 := congrArg (Multiset.count ch) hIH0
        have hbuf : buffer = [] := by
          rename_i hb
          simpa using hb
        rw [hbuf]
        simp only [List.map_append, List.map_cons, List.sum_append, List.sum_cons,
          List.map_nil, List.sum_nil, add_zero, Multiset.count_add] at h1 ⊢
        omega
    · split
      · refine Multiset.ext.mpr (fun ch => ?_)
        have h1 := congrArg (Multiset.count ch) hIH0
        simp only [List.map_append, List.map_cons, List.sum_append, List.sum_cons,
          List.map_nil, List.sum_nil, add_zero, Multiset.count_add] at h1 ⊢
        rw [nws_joinSep_ws [' '] space_sep_ws (buffer ++ [c])]
        simp only [List.map_append, List.map_cons, List.sum_append, List.sum_cons,
          List.map_nil, List.sum_nil, add_zero, Multiset.count_add]
        omega
      · have hIH := mergeCore_nws cfg rest (buffer ++ [c]) (bt + Chunker.estimate_tokens c)
        refine Multiset.ext.mpr (fun ch => ?_)
        have h1 := congrArg (Multiset.count ch) hIH
        simp only [List.map_append, List.map_cons, List.sum_append, List.sum_cons,
          List.map_nil, List.sum_nil, add_zero, Multiset.count_add] at h1 ⊢
        omega

theorem merge_small_chunks_nws (cfg : Chunker.ChunkerConfig) (chunks : List Str) :
    ((Chunker.merge_small_chunks cfg chunks).map nws).sum = (chunks.map nws).sum := by
  rw [Chunker.merge_small_chunks]
  split
  · rename_i hnil
    rw [hnil]
  · dsimp only
    split
    · cases hcl : (Chunker.mergeCore cfg chunks [] 0).1.getLast? with
      | none =>
        have hr1 : (Chunker.mergeCore cfg chunks [] 0).1 = [] := by
          simpa using hcl
        have hmc := mergeCore_nws cfg chunks [] 0
        rw [hr1] at hmc
        simp only [List.map_nil, List.sum_nil, zero_add, add_zero] at hmc
        simp only [List.map_cons, List.sum_cons, List.map_nil, List.sum_nil, add_zero]
        rw [nws_joinSep_ws [' '] space_sep_ws, hmc]
      | some last =>
        have hr1 := List.dropLast_append_getLast? last (Option.mem_def.mpr hcl)
        have hmc := mergeCore_nws cfg chunks [] 0
        have h2 : (((Chunker.mergeCore cfg chunks [] 0).1.dropLast.map nws).sum +
            nws last) = ((Chunker.mergeCore cfg chunks [] 0).1.map nws).sum := by
          conv_rhs => rw [← hr1]
          simp [List.map_append]
        refine Multiset.ext.mpr (fun ch => ?_)
        have h3 := congrArg (Multiset.count ch) hmc
        have h4 := congrArg (Multiset.count ch) h2
        simp only [List.map_append, List.map_cons, List.sum_append, List.sum_cons,
          List.map_nil, List.sum_nil, add_zero, Multiset.count_add] at h3 h4 ⊢
        rw [nws_append, nws_cons_ws ' ' _ (by decide),
          nws_joinSep_ws [' '] space_sep_ws]
        simp only [Multiset.count_add]
        omega
    · rename_i hr2
      have hr2e : (Chunker.mergeCore cfg chunks [] 0).2 = [] := by
        by_contra hcon
        exact hr2 hcon
      have hmc := mergeCore_nws cfg chunks [] 0
      rw [hr2e] at hmc
      simpa using hmc

/-- Claim C1 counterexample: the input `"Hello world."` has one sentence, the
cleaned text is non-empty, yet `chunk_text` with the production defaults
returns no chunks at all — the final `if current:` flush requires the
remainder to reach `min_chunk_size`, and the initial gate drops any cleaned
text under `min_chunk_size` tokens outright, so whole sentences are lost. -/
theorem chunk_text_drops_sentence :
    Chunker.chunk_text Chunker.defaultConfig "Hello world.".toList = [] ∧
    Chunker.split_sentences (Chunker.remove_noise "Hello world.".toList) =
      ["Hello world.".toList] := by
  constructor
  · decide
  · decide

/-- Claim C1 (amended): for every configuration and every input text whose
cleaned text contains no literal `<DOT>` marker and passes the minimum-size
gate of `chunk_text`, the multiset of non-whitespace characters of the
cleaned text is contained in the multiset of non-whitespace characters of
the returned chunks taken together: no content is lost, though overlap may
duplicate some of it.  Without the gate hypothesis the property fails, as
`chunk_text_drops_sentence` shows. -/
theorem chunk_text_preserves_content (cfg : Chunker.ChunkerConfig) (text : Str)
    (h1 : PyStr.containsSub "<DOT>".toList (Chunker.remove_noise text) = false)
    (h2 : ¬(Chunker.remove_noise text = [] ∨
      Chunker.estimate_tokens (Chunker.remove_noise text) < cfg.min_chunk_size)) :
    nws (Chunker.remove_noise text) ≤ ((Chunker.chunk_text cfg text).map nws).sum := by
  rw [Chunker.chunk_text]
  dsimp only
  rw [if_neg h2]
  have hparas := split_by_paragraph_noDOT (Chunker.remove_noise text) h1
  have hpl := paraLoop_noDOT cfg (Chunker.split_by_paragraph (Chunker.remove_noise text))
    [] [] 0 hparas (fun x hx => absurd hx (List.not_mem_nil x))
    (fun x hx => absurd hx (List.not_mem_nil x))
  have hnws := paraLoop_nws cfg (Chunker.split_by_paragraph (Chunker.remove_noise text))
    [] [] 0 hparas
  rw [split_by_paragraph_nws] at hnws
  simp only [List.map_nil, List.sum_nil, zero_add] at hnws
  rw [merge_small_chunks_nws]
  rw [flatMap_split_nws cfg _ ?hnd]
  case hnd =>
    intro c hc
    split at hc
    · rcases List.mem_append.mp hc with hm1 | hm2
      · exact hpl.1 c hm1
      · rw [List.mem_singleton.mp hm2]
        exact joinSep_space_noDOT _ hpl.2
    · exact hpl.1 c hc
  split
  · refine Multiset.le_iff_count.mpr (fun ch => ?_)
    have hn := Multiset.le_iff_count.mp hnws ch
    simp only [List.map_append, List.map_cons, List.sum_append, List.sum_cons,
      List.map_nil, List.sum_nil, add_zero, Multiset.count_add] at hn ⊢
    rw [nws_joinSep_ws [' '] space_sep_ws]
    omega
  · refine Multiset.le_iff_count.mpr (fun ch => ?_)
    have hn := Multiset.le_iff_count.mp hnws ch
    rename_i hne
    have hemp : (Chunker.paraLoop cfg
        (Chunker.split_by_paragraph (Chunker.remove_noise text)) [] [] 0).2.1 = [] := by
      by_contra hcon
      exact hne hcon
    rw [hemp] at hn
    simp only [List.map_nil, List.sum_nil, add_zero, Multiset.count_add] at hn ⊢
    omega

/-- Witness for C1 (amended) at a concrete configuration and input. -/
theorem chunk_text_preserves_content_witness :
    (PyStr.containsSub "<DOT>".toList
        (Chunker.remove_noise "Hello world. Goodbye now.".toList) = false ∧
      ¬(Chunker.remove_noise "Hello world. Goodbye now.".toList = [] ∨
        Chunker.estimate_tokens (Chunker.remove_noise "Hello world. Goodbye now.".toList) <
          (⟨8, 2, 2, 10⟩ : Chunker.ChunkerConfig).min_chunk_size)) ∧
    nws (Chunker.remove_noise "Hello world. Goodbye now.".toList) ≤
      ((Chunker.chunk_text ⟨8, 2, 2, 10⟩ "Hello world. Goodbye now.".toList).map nws).sum :=
  ⟨⟨by decide, by decide⟩,
    chunk_text_preserves_content ⟨8, 2, 2, 10⟩ "Hello world. Goodbye now.".toList
      (by decide) (by decide)⟩
